import Mathlib

/-!
# Verification of the WordPress → Payload HTML conversion pipeline

This file gives a shallow embedding of the document-conversion core of the
migration script (`decodeHtmlEntities`, `cleanWordPressHtml`,
`parseHtmlTable`, `parseHtmlList`, `htmlToLexical`) and proves / refutes the
frozen specification claims about it.

Modelling conventions:
* A JavaScript string is a sequence of UTF-16 code units, modelled as
  `List Nat` (`JStr`).  `utf16` converts a Lean string literal to that form
  (splitting astral code points into surrogate pairs, as JS does).
* `String.fromCharCode(n)` truncates its argument to 16 bits (`ToUint16`),
  modelled as `n % 65536`.  `parseInt` is modelled as exact base-10/16
  evaluation of the digit string (exact for the digit counts that arise here).
* Regular-expression scans (`String.match`, `String.replace`, `String.split`
  with global regexes) are modelled by explicit left-to-right scanners.  The
  scanners take a fuel argument so that they are structurally recursive and
  kernel-computable; the fuel is always instantiated with the length of the
  scanned string, which is enough for one fuel unit per consumed character.
* The DOM produced by `node-html-parser` is modelled by the forest type
  `HTree` in first-child / next-sibling form: a forest is either empty, a
  text node followed by its siblings, or an element (tag, attributes,
  children forest) followed by its siblings.  Tag and attribute names are
  taken as the parser's normalised (lower-case) names.  Parsing itself
  (string → tree) is the external library's job and stays outside the model:
  theorems about the sanitizer quantify over all parsed forests.
-/

/-- A JavaScript string: a list of UTF-16 code units. -/
abbrev JStr := List Nat

/-- One Unicode scalar value as UTF-16 code units (surrogate pair when
astral), exactly as JS strings store it. -/
def utf16one (n : Nat) : List Nat :=
  if n < 65536 then [n]
  else [55296 + (n - 65536) / 1024, 56320 + (n - 65536) % 1024]

/-- Lean string literal → JS string (UTF-16 code units). -/
def utf16 (s : String) : JStr :=
  s.data.foldr (fun c acc => utf16one c.toNat ++ acc) []

/-- JS whitespace for `String.prototype.trim` (ASCII whitespace, NBSP,
line/paragraph separators, BOM). -/
def isJsWs (c : Nat) : Bool :=
  c = 9 || c = 10 || c = 11 || c = 12 || c = 13 || c = 32 ||
  c = 160 || c = 8232 || c = 8233 || c = 65279

/-- JS `String.prototype.trim`: strip leading and trailing whitespace. -/
def trimJs (s : JStr) : JStr :=
  ((s.dropWhile isJsWs).reverse.dropWhile isJsWs).reverse

/-- ASCII lower-casing of one code unit (`String.prototype.toLowerCase` and
the effect of a case-insensitive regex, for the ASCII patterns used here). -/
def lowerC (c : Nat) : Nat :=
  if 65 ≤ c ∧ c ≤ 90 then c + 32 else c

def lowerS (s : JStr) : JStr := s.map lowerC

/-- decimal digit, `\d` of the numeric-entity regexes -/
def isDigitC (c : Nat) : Bool := 48 ≤ c && c ≤ 57

/-- hexadecimal digit, `[0-9a-fA-F]` of the hex-entity regex -/
def isHexC (c : Nat) : Bool :=
  (48 ≤ c && c ≤ 57) || (97 ≤ c && c ≤ 102) || (65 ≤ c && c ≤ 70)

/-- numeric value of a hex digit code unit -/
def hexVal (c : Nat) : Nat :=
  if 48 ≤ c ∧ c ≤ 57 then c - 48
  else if 97 ≤ c ∧ c ≤ 102 then c - 87
  else if 65 ≤ c ∧ c ≤ 70 then c - 55
  else 0

/-- JS `parseInt(ds, 10)` on a string of decimal digit code units. -/
def parseDec (ds : JStr) : Nat := ds.foldl (fun a c => a * 10 + (c - 48)) 0

/-- JS `parseInt(ds, 16)` on a string of hex digit code units. -/
def parseHex (ds : JStr) : Nat := ds.foldl (fun a c => a * 16 + hexVal c) 0

/-!
## Generic left-to-right scanners

`rewriteScan step fuel s` models a global left-to-right replace: at each
position it asks `step` for a match starting there; on a match it emits the
replacement and resumes after the match, otherwise it keeps the character and
moves one position right.  This is the semantics of `String.replace` with a
global regex and of `split(..).join(..)`.  `collectScan` is the same loop but
collecting the matched substrings (`String.match` with a global regex).
-/

def rewriteScan (step : JStr → Option (JStr × JStr)) : Nat → JStr → JStr
  | 0, s => s
  | _ + 1, [] => []
  | n + 1, c :: s =>
    match step (c :: s) with
    | some (out, rest) => out ++ rewriteScan step n rest
    | none => c :: rewriteScan step n s

def collectScan (step : JStr → Option (JStr × JStr)) : Nat → JStr → List JStr
  | 0, _ => []
  | _ + 1, [] => []
  | n + 1, c :: s =>
    match step (c :: s) with
    | some (m, rest) => m :: collectScan step n rest
    | none => collectScan step n s

/-- Match step for one fixed literal substring `pat`: on a match, replace it
by `rep` (the step behind `decoded.split(entity).join(char)`). -/
def stepLit (pat rep : JStr) (s : JStr) : Option (JStr × JStr) :=
  if pat ≠ [] ∧ pat.isPrefixOf s then some (rep, s.drop pat.length) else none

/-- JS `s.split(pat).join(rep)`: replace every occurrence of the literal `pat`. -/
def replaceSub (pat rep s : JStr) : JStr :=
  rewriteScan (stepLit pat rep) s.length s

/-!
## Entity decoder (`decodeHtmlEntities`, migration script lines 19–71)
-/

/-- The named-entity table of `decodeHtmlEntities`, in source order. -/
def namedEntities : List (JStr × JStr) :=
  [ (utf16 "&nbsp;", utf16 " ")
  , (utf16 "&amp;", utf16 "&")
  , (utf16 "&lt;", utf16 "<")
  , (utf16 "&gt;", utf16 ">")
  , (utf16 "&quot;", utf16 "\"")
  , (utf16 "&apos;", utf16 "\x27")
  , (utf16 "&ndash;", utf16 "–")
  , (utf16 "&mdash;", utf16 "—")
  , (utf16 "&lsquo;", utf16 "‘")
  , (utf16 "&rsquo;", utf16 "’")
  , (utf16 "&ldquo;", utf16 "“")
  , (utf16 "&rdquo;", utf16 "”")
  , (utf16 "&hellip;", utf16 "…")
  , (utf16 "&copy;", utf16 "©")
  , (utf16 "&reg;", utf16 "®")
  , (utf16 "&trade;", utf16 "™")
  , (utf16 "&euro;", utf16 "€")
  , (utf16 "&pound;", utf16 "£")
  , (utf16 "&yen;", utf16 "¥")
  , (utf16 "&cent;", utf16 "¢")
  , (utf16 "&deg;", utf16 "°")
  , (utf16 "&plusmn;", utf16 "±")
  , (utf16 "&times;", utf16 "×")
  , (utf16 "&divide;", utf16 "÷")
  , (utf16 "&frac12;", utf16 "½")
  , (utf16 "&frac14;", utf16 "¼")
  , (utf16 "&frac34;", utf16 "¾") ]

/-- The named-entity pass: sequential `split(entity).join(char)` over the
table, in table order. -/
def namedPass (s : JStr) : JStr :=
  namedEntities.foldl (fun acc pr => replaceSub pr.1 pr.2 acc) s

/-- One match of `/&#(\d+);/`: `&`, `#`, one-or-more digits, `;`; the
replacement is `String.fromCharCode(parseInt(digits, 10))`, i.e. the decimal
value truncated to 16 bits. -/
def stepDec (s : JStr) : Option (JStr × JStr) :=
  match s with
  | 38 :: 35 :: rest =>
    let ds := rest.takeWhile isDigitC
    if ds = [] then none
    else
      match rest.dropWhile isDigitC with
      | 59 :: tail => some ([parseDec ds % 65536], tail)
      | _ => none
  | _ => none

/-- One match of `/&#x([0-9a-fA-F]+);/` (lower-case `x` only; the regex has
no `i` flag). -/
def stepHex (s : JStr) : Option (JStr × JStr) :=
  match s with
  | 38 :: 35 :: 120 :: rest =>
    let ds := rest.takeWhile isHexC
    if ds = [] then none
    else
      match rest.dropWhile isHexC with
      | 59 :: tail => some ([parseHex ds % 65536], tail)
      | _ => none
  | _ => none

def decPass (s : JStr) : JStr := rewriteScan stepDec s.length s

def hexPass (s : JStr) : JStr := rewriteScan stepHex s.length s

/-- The decoder `decodeHtmlEntities`: named entities first, then decimal numeric
references, then hexadecimal numeric references.  (The source's
`if (!text) return ''` guard is the identity on the empty string.) -/
def decodeHtmlEntities (s : JStr) : JStr := hexPass (decPass (namedPass s))

/-- Does `pat` occur as a contiguous substring of `s`? -/
def containsSub (pat : JStr) : JStr → Bool
  | [] => pat.isPrefixOf []
  | c :: s => pat.isPrefixOf (c :: s) || containsSub pat s

/-- Is there a decimal numeric reference anywhere in `s`? -/
def hasDecRef : JStr → Bool
  | [] => false
  | c :: s => (stepDec (c :: s)).isSome || hasDecRef s

/-- Is there a hexadecimal numeric reference anywhere in `s`? -/
def hasHexRef : JStr → Bool
  | [] => false
  | c :: s => (stepHex (c :: s)).isSome || hasHexRef s

/-- Predicate: `s` contains some decodable entity occurrence: a named entity from the
table, a decimal numeric reference, or a hex numeric reference. -/
def hasEntity (s : JStr) : Bool :=
  namedEntities.any (fun pr => containsSub pr.1 s) || hasDecRef s || hasHexRef s

/-!
## Target document model (serialized Lexical nodes)

Only the structurally meaningful fields are modelled.  Fields that the source
sets to the same literal constant on every node (`version`, `direction`,
`format`, `indent`, `textFormat`, the list's `start`/`tag`/`listType`
redundant with `ordered`, and the always-`undefined` `width`,
`backgroundColor`, `height`) are omitted.
-/

inductive LNode where
  /-- Node `{ type: 'text', text }` -/
  | ltext (text : JStr) : LNode
  /-- Node `{ type: 'paragraph', children }` -/
  | paragraph (children : List LNode) : LNode
  /-- Node `{ type: 'heading', tag: 'h<level>', children }` -/
  | heading (level : Nat) (children : List LNode) : LNode
  /-- Node `{ type: 'listitem', children, value }` -/
  | listitem (children : List LNode) (value : Nat) : LNode
  /-- Node `{ type: 'list', listType, tag, children }`; `ordered` decides
  `number`/`ol` versus `bullet`/`ul` -/
  | list (ordered : Bool) (children : List LNode) : LNode
  /-- Node `{ type: 'tablecell', headerState, colSpan, rowSpan, children }` -/
  | tablecell (headerState colSpan rowSpan : Nat) (children : List LNode) : LNode
  /-- Node `{ type: 'tablerow', children }` -/
  | tablerow (children : List LNode) : LNode
  /-- Node `{ type: 'table', children }` -/
  | table (children : List LNode) : LNode

/-!
## Table parsing (`parseHtmlTable`, migration script lines 310–370)

`parseHtmlTable` works on the raw HTML string with regexes:
row extraction `/<tr[^>]*>[\s\S]*?<\/tr>/gi`, cell extraction
`/<t[hd][^>]*>[\s\S]*?<\/t[hd]>/gi`, cell-tag stripping
`/<\/?t[hd][^>]*>/gi`, inline-tag stripping `/<[^>]+>/g`.
-/

/-- Regex fragment `[^>]*>` after an already-matched opening: take the maximal run of
non-`>` characters, then require `>`; returns (the run, the rest). -/
def takeToGt (s : JStr) : Option (JStr × JStr) :=
  match s.dropWhile (fun c => !(c = 62 : Bool)) with
  | 62 :: r => some (s.takeWhile (fun c => !(c = 62 : Bool)), r)
  | _ => none

/-- Recognise `</tr>` case-insensitively at the head; returns the matched
five characters and the rest. -/
def closeTr (s : JStr) : Option (JStr × JStr) :=
  match s with
  | 60 :: 47 :: c :: d :: 62 :: r =>
    if lowerC c = 116 ∧ lowerC d = 114 then some ([60, 47, c, d, 62], r) else none
  | _ => none

/-- Recognise `</th>` or `</td>` case-insensitively at the head. -/
def closeCell (s : JStr) : Option (JStr × JStr) :=
  match s with
  | 60 :: 47 :: c :: d :: 62 :: r =>
    if lowerC c = 116 ∧ (lowerC d = 104 ∨ lowerC d = 100) then
      some ([60, 47, c, d, 62], r)
    else none
  | _ => none

/-- Lazy `[\s\S]*?` up to the earliest position where `isCl` recognises the
closing literal; returns (body, the matched closing text, the rest). -/
def findClose (isCl : JStr → Option (JStr × JStr)) : Nat → JStr → Option (JStr × JStr × JStr)
  | 0, _ => none
  | _ + 1, [] => none
  | n + 1, c :: s =>
    match isCl (c :: s) with
    | some (cl, rest) => some ([], cl, rest)
    | none =>
      match findClose isCl n s with
      | some (body, cl, rest) => some (c :: body, cl, rest)
      | none => none

/-- One match of the row regex `<tr[^>]*>[\s\S]*?<\/tr>` (case-insensitive)
at the head of `s`: returns the full matched text and the rest. -/
def stepRow (s : JStr) : Option (JStr × JStr) :=
  match s with
  | 60 :: a :: b :: rest =>
    if lowerC a = 116 ∧ lowerC b = 114 then
      match takeToGt rest with
      | some (attrs, rest2) =>
        match findClose closeTr rest2.length rest2 with
        | some (body, cl, rest3) =>
          some (60 :: a :: b :: (attrs ++ 62 :: (body ++ cl)), rest3)
        | none => none
      | none => none
    else none
  | _ => none

/-- One match of the cell regex `<t[hd][^>]*>[\s\S]*?<\/t[hd]>`
(case-insensitive) at the head of `s`. -/
def stepCell (s : JStr) : Option (JStr × JStr) :=
  match s with
  | 60 :: a :: b :: rest =>
    if lowerC a = 116 ∧ (lowerC b = 104 ∨ lowerC b = 100) then
      match takeToGt rest with
      | some (attrs, rest2) =>
        match findClose closeCell rest2.length rest2 with
        | some (body, cl, rest3) =>
          some (60 :: a :: b :: (attrs ++ 62 :: (body ++ cl)), rest3)
        | none => none
      | none => none
    else none
  | _ => none

/-- JS `tableHtml.match(/<tr[^>]*>[\s\S]*?<\/tr>/gi)`, with `null` as `[]`. -/
def rowMatches (s : JStr) : List JStr := collectScan stepRow s.length s

/-- JS `rowHtml.match(/<t[hd][^>]*>[\s\S]*?<\/t[hd]>/gi)`, with `null` as `[]`. -/
def cellMatches (s : JStr) : List JStr := collectScan stepCell s.length s

/-- One match of `<\/?t[hd][^>]*>` (case-insensitive) at the head,
replaced by nothing. -/
def stepCellTag (s : JStr) : Option (JStr × JStr) :=
  match s with
  | 60 :: rest =>
    match (match rest with | 47 :: r => r | r => r) with
    | a :: b :: r2 =>
      if lowerC a = 116 ∧ (lowerC b = 104 ∨ lowerC b = 100) then
        match takeToGt r2 with
        | some (_, rest3) => some ([], rest3)
        | none => none
      else none
    | _ => none
  | _ => none

/-- One match of `<[^>]+>` at the head (at least one non-`>` character
between the brackets), replaced by nothing. -/
def stepAnyTag (s : JStr) : Option (JStr × JStr) :=
  match s with
  | 60 :: rest =>
    match rest.takeWhile (fun c => !(c = 62 : Bool)) with
    | [] => none
    | _ :: _ =>
      match rest.dropWhile (fun c => !(c = 62 : Bool)) with
      | 62 :: r => some ([], r)
      | _ => none
  | _ => none

/-- JS `.replace(/<\/?t[hd][^>]*>/gi, '')` -/
def stripCellTags (s : JStr) : JStr := rewriteScan stepCellTag s.length s

/-- JS `.replace(/<[^>]+>/g, '')` -/
def stripAllTags (s : JStr) : JStr := rewriteScan stepAnyTag s.length s

/-- The decoded plain-text content of one matched cell:
`decodeHtmlEntities(cellHtml.replace(cellTags,'').replace(tags,'').trim())`. -/
def cellContentOf (cellHtml : JStr) : JStr :=
  decodeHtmlEntities (trimJs (stripAllTags (stripCellTags cellHtml)))

/-- JS `cellHtml.toLowerCase().startsWith('<th')` -/
def cellIsHeader (cellHtml : JStr) : Bool :=
  (utf16 "<th").isPrefixOf (lowerS cellHtml)

/-- Build the Lexical cell for one matched cell string (script lines
333–350): always one paragraph child, whose children are empty exactly when
the decoded content is the empty string. -/
def buildCell (cellHtml : JStr) : LNode :=
  let content := cellContentOf cellHtml
  LNode.tablecell (if cellIsHeader cellHtml then 1 else 0) 1 1
    [LNode.paragraph (if content = [] then [] else [LNode.ltext content])]

/-- The cell loop of `parseHtmlTable`: one output cell per matched cell. -/
def buildCells (ms : List JStr) : List LNode := ms.map buildCell

/-- The row loop: rows whose cell regex finds nothing are skipped
(`if (!cellMatches) continue`); a matched row always yields ≥ 1 cell, so the
`cells.length > 0` check always passes for the remaining rows. -/
def buildRows (rows : List JStr) : List LNode :=
  rows.filterMap (fun rowHtml =>
    match cellMatches rowHtml with
    | [] => none
    | ms => some (LNode.tablerow (buildCells ms)))

/-- The function `parseHtmlTable` (script lines 310–370). -/
def parseHtmlTable (tableHtml : JStr) : Option LNode :=
  match rowMatches tableHtml with
  | [] => none
  | rs =>
    match buildRows rs with
    | [] => none
    | rows => some (LNode.table rows)

/-!
## The DOM forest (`node-html-parser` trees)

First-child / next-sibling encoding of the parsed HTML forest.  `hnil` is the
empty forest; `htext s sib` a text node (raw, entity-undecoded text, as the
library keeps it) followed by its right siblings; `helem tag attrs cs sib` an
element with children forest `cs` followed by its right siblings.
-/

inductive HTree where
  | hnil : HTree
  | htext (s : JStr) (sib : HTree) : HTree
  | helem (tag : JStr) (attrs : List (JStr × JStr)) (children : HTree) (sib : HTree) : HTree
deriving DecidableEq

open HTree

/-- Concatenate two forests (append to the last sibling). -/
def hcat : HTree → HTree → HTree
  | hnil, g => g
  | htext s sib, g => htext s (hcat sib g)
  | helem t a cs sib, g => helem t a cs (hcat sib g)

/-- DOM `.textContent` of a forest: concatenation of all text nodes, in document
order (the library does not decode entities here). -/
def textContentF : HTree → JStr
  | hnil => []
  | htext s sib => s ++ textContentF sib
  | helem _ _ cs sib => textContentF cs ++ textContentF sib

/-- DOM `querySelectorAll('li')` over a forest, in document order, returning each
matched element's children forest (all an `li` contributes below is its
`textContent`, which is that of its children). -/
def collectLis : HTree → List HTree
  | hnil => []
  | htext _ sib => collectLis sib
  | helem t _ cs sib =>
    (if t = utf16 "li" then [cs] else []) ++ collectLis cs ++ collectLis sib

/-!
## List parsing (`parseHtmlList`, migration script lines 375–420)

The source parses the list HTML with `parseHtml` and iterates over
`querySelectorAll('li')`; the model takes the parsed forest directly.
-/

/-- The item loop (script lines 384–405): items whose decoded trimmed text is
empty are skipped; the position `value` is incremented only when an item is
emitted. -/
def buildListItems : List HTree → Nat → List LNode
  | [], _ => []
  | it :: rest, v =>
    let text := decodeHtmlEntities (trimJs (textContentF it))
    if text = [] then buildListItems rest v
    else
      LNode.listitem [LNode.paragraph [LNode.ltext text]] v ::
        buildListItems rest (v + 1)

/-- The function `parseHtmlList` on the parsed forest of the list HTML. -/
def parseHtmlList (doc : HTree) (isOrdered : Bool) : Option LNode :=
  match collectLis doc with
  | [] => none
  | items =>
    match buildListItems items 1 with
    | [] => none
    | listItems => some (LNode.list isOrdered listItems)

/-!
## Markup sanitizer (`cleanWordPressHtml`, migration script lines 189–305)

The two pre-parse string fixups (WordPress block-comment removal and the
malformed numeric closing tags) happen before the library parses the string;
since every theorem below quantifies over all parsed forests, they need no
separate model.  All DOM passes after parsing are modelled here, in source
order, over `HTree`.
-/

/-- CSS/HTML attribute whitespace (for splitting a class list). -/
def isAsciiWs (c : Nat) : Bool := c = 9 || c = 10 || c = 12 || c = 13 || c = 32

/-- Split a string on whitespace runs (for the class-word selector `.foo`). -/
def splitWs : JStr → JStr → List JStr
  | [], cur => if cur = [] then [] else [cur.reverse]
  | c :: s, cur =>
    if isAsciiWs c then
      if cur = [] then splitWs s [] else cur.reverse :: splitWs s []
    else splitWs s (c :: cur)

/-- DOM `getAttribute(name)`: the first attribute with that name, if any. -/
def getAttr (name : JStr) (attrs : List (JStr × JStr)) : Option JStr :=
  (attrs.find? (fun p => p.1 = name)).map Prod.snd

/-- JS truthiness of `getAttribute(name)`: present and non-empty. -/
def attrTruthy (name : JStr) (attrs : List (JStr × JStr)) : Bool :=
  match getAttr name attrs with
  | some v => !(v = [] : Bool)
  | none => false

/-- The class attribute value, `''` when absent. -/
def classValOf (attrs : List (JStr × JStr)) : JStr :=
  (getAttr (utf16 "class") attrs).getD []

/-- The id attribute value, `''` when absent (`el.getAttribute('id') || ''`). -/
def idValOf (attrs : List (JStr × JStr)) : JStr :=
  (getAttr (utf16 "id") attrs).getD []

/-- CSS class selector `.w`: the class list, split on whitespace, contains
the word. -/
def hasClassWord (w : JStr) (attrs : List (JStr × JStr)) : Bool :=
  (splitWs (classValOf attrs) []).contains w

/-- CSS substring attribute selector `[class*="sub"]`. -/
def classContains (sub : JStr) (attrs : List (JStr × JStr)) : Bool :=
  match getAttr (utf16 "class") attrs with
  | some v => containsSub sub v
  | none => false

/-- CSS substring attribute selector `[id*="sub"]`. -/
def idContains (sub : JStr) (attrs : List (JStr × JStr)) : Bool :=
  match getAttr (utf16 "id") attrs with
  | some v => containsSub sub v
  | none => false

/-- Remove every attribute with the given name. -/
def removeAttr (name : JStr) (attrs : List (JStr × JStr)) : List (JStr × JStr) :=
  attrs.filter (fun p => !(p.1 = name : Bool))

/-- DOM `querySelectorAll(sel).forEach(el => el.remove())`: drop every element
(with its whole subtree) on which `bad` holds; `bad` sees the element's tag,
attributes and children (a detached copy, never its siblings).  Evaluating
`bad` top-down on the current subtree agrees with the source's
snapshot-then-remove order. -/
def removeElems (bad : JStr → List (JStr × JStr) → HTree → Bool) : HTree → HTree
  | .hnil => .hnil
  | .htext s sib => .htext s (removeElems bad sib)
  | .helem t a cs sib =>
    if bad t a cs then removeElems bad sib
    else .helem t a (removeElems bad cs) (removeElems bad sib)

/-- Rewrite every element's attribute list in place. -/
def mapAttrsF (f : List (JStr × JStr) → List (JStr × JStr)) : HTree → HTree
  | .hnil => .hnil
  | .htext s sib => .htext s (mapAttrsF f sib)
  | .helem t a cs sib => .helem t (f a) (mapAttrsF f cs) (mapAttrsF f sib)

/-- The wrapper test of pass 11:
`[class*="wp-block-"], [class*="kb-"], [class*="kt-"], [class*="kadence"],
[class*="wprm-"]`. -/
def isWrapper (attrs : List (JStr × JStr)) : Bool :=
  classContains (utf16 "wp-block-") attrs || classContains (utf16 "kb-") attrs ||
  classContains (utf16 "kt-") attrs || classContains (utf16 "kadence") attrs ||
  classContains (utf16 "wprm-") attrs

/-- Pass 11 (wrapper unwrapping): a wrapper that is a generic container
(`DIV`/`SECTION`/`FIGURE`) is replaced by its children (which, when there are
none left, is plain removal — the source's `childNodes.length > 0` branch);
any other wrapper keeps its place but loses `class` and `style`.  Processing
the tree bottom-up gives the same result as the source's document-order
snapshot loop. -/
def unwrapF : HTree → HTree
  | .hnil => .hnil
  | .htext s sib => .htext s (unwrapF sib)
  | .helem t a cs sib =>
    let cs' := unwrapF cs
    let sib' := unwrapF sib
    if isWrapper a then
      if t = utf16 "div" ∨ t = utf16 "section" ∨ t = utf16 "figure" then
        hcat cs' sib'
      else .helem t (removeAttr (utf16 "style") (removeAttr (utf16 "class") a)) cs' sib'
    else .helem t a cs' sib'

/-- Any element with one of the given tags in the forest? (used for
`p.querySelector('img, a, mark')`, which searches descendants). -/
def hasTagIn (tags : List JStr) : HTree → Bool
  | .hnil => false
  | .htext _ sib => hasTagIn tags sib
  | .helem t _ cs sib => tags.contains t || hasTagIn tags cs || hasTagIn tags sib

/-- Serialisation of attributes for `toString`/`innerHTML`. -/
def serializeAttrs : List (JStr × JStr) → JStr
  | [] => []
  | (n, v) :: rest => 32 :: (n ++ 61 :: 34 :: (v ++ 34 :: serializeAttrs rest))

/-- DOM `toString`/`innerHTML` of a forest: raw text for text nodes,
`<tag attrs>children</tag>` for elements. -/
def serializeF : HTree → JStr
  | .hnil => []
  | .htext s sib => s ++ serializeF sib
  | .helem t a cs sib =>
    60 :: (t ++ serializeAttrs a ++ 62 :: (serializeF cs ++ 60 :: 47 :: (t ++ 62 :: serializeF sib)))

/-- The event-handler attributes removed by pass 10. -/
def invalidEventAttrs : List JStr :=
  [utf16 "onclick", utf16 "onmouseenter", utf16 "onmouseleave", utf16 "onfocus",
   utf16 "onblur", utf16 "onkeypress", utf16 "onerror", utf16 "onload"]

/-- The id substrings of pass 14's WordPress-specific id removal. -/
def wpIdMarkers : List JStr :=
  [utf16 "wprm-", utf16 "recipe-", utf16 "kb-", utf16 "kt-", utf16 "kadence"]

/-- Pass 14 per-element attribute rewrite: drop every `data-*` attribute,
then drop `id` when its value contains a generator-tool marker. -/
def cleanDataAndId (attrs : List (JStr × JStr)) : List (JStr × JStr) :=
  let a1 := attrs.filter (fun p => !(utf16 "data-").isPrefixOf p.1)
  if wpIdMarkers.any (fun m => containsSub m (idValOf a1)) then
    removeAttr (utf16 "id") a1
  else a1

/-- Pass 15a predicate: an empty `<p>` — no trimmed text and no embedded
`img`/`a`/`mark` descendant. -/
def isEmptyP (t : JStr) (cs : HTree) : Bool :=
  t = utf16 "p" && trimJs (textContentF cs) = [] &&
    !hasTagIn [utf16 "img", utf16 "a", utf16 "mark"] cs

/-- Pass 15b predicate: a `div`/`span` whose `innerHTML` has no non-blank
content (`!el.innerHTML?.trim()`). -/
def isEmptyDivSpan (t : JStr) (cs : HTree) : Bool :=
  (t = utf16 "div" || t = utf16 "span") && trimJs (serializeF cs) = []

/-- The DOM passes 1–15 of `cleanWordPressHtml`, in source order. -/
def cleanTreePipeline (f : HTree) : HTree :=
  let f := removeElems (fun t _ _ => t = utf16 "style") f
  let f := removeElems (fun t _ _ => t = utf16 "script") f
  let f := removeElems (fun _ a _ =>
    hasClassWord (utf16 "hs-cta-embed") a || classContains (utf16 "hs-cta") a) f
  let f := removeElems (fun _ a _ =>
    hasClassWord (utf16 "wprm-recipe-user-rating") a ||
    hasClassWord (utf16 "wprm-user-rating") a ||
    hasClassWord (utf16 "wprm-recipe-rating") a ||
    hasClassWord (utf16 "wprm-recipe-call-to-action") a ||
    hasClassWord (utf16 "wprm-call-to-action") a ||
    hasClassWord (utf16 "wprm-recipe-print") a ||
    hasClassWord (utf16 "wprm-recipe-pin") a ||
    hasClassWord (utf16 "wprm-cta-rating-modal") a ||
    classContains (utf16 "wprm-recipe-jump") a) f
  let f := removeElems (fun _ a _ =>
    classContains (utf16 "slickstream") a ||
    hasClassWord (utf16 "wprm-recipe-slickstream") a) f
  let f := removeElems (fun _ a _ =>
    hasClassWord (utf16 "sr-only") a ||
    hasClassWord (utf16 "screen-reader-text") a ||
    hasClassWord (utf16 "wprm-screen-reader-text") a) f
  let f := removeElems (fun _ a _ =>
    idContains (utf16 "hubspot") a || classContains (utf16 "hubspot") a) f
  let f := removeElems (fun _ a _ =>
    hasClassWord (utf16 "wp-block-kadence-advancedgallery") a) f
  let f := removeElems (fun _ a _ =>
    hasClassWord (utf16 "kb-svg-icon-wrap") a ||
    hasClassWord (utf16 "kt-svg-icon-list-single") a) f
  let f := removeElems (fun t a _ =>
    t = utf16 "svg" && !attrTruthy (utf16 "width") a && !attrTruthy (utf16 "height") a) f
  let f := mapAttrsF (fun a => a.filter (fun p => !invalidEventAttrs.contains p.1)) f
  let f := unwrapF f
  let f := mapAttrsF (removeAttr (utf16 "class")) f
  let f := mapAttrsF (removeAttr (utf16 "style")) f
  let f := mapAttrsF cleanDataAndId f
  let f := removeElems (fun t _ cs => isEmptyP t cs) f
  let f := removeElems (fun t _ cs => isEmptyDivSpan t cs) f
  f

/-- The sanitizer `cleanWordPressHtml` after parsing: serialise the cleaned forest and trim
(`root.toString().trim()`). -/
def cleanWordPressHtml (f : HTree) : JStr :=
  trimJs (serializeF (cleanTreePipeline f))

/-!
## HTML → Lexical conversion (`htmlToLexical`, migration script lines 425–545)

List segments are re-parsed by the library inside `parseHtmlList`; the model
therefore takes the parse function as an explicit parameter and the results
below quantify over it.
-/

/-- Case-insensitive literal match at the head: returns the actually matched
characters and the rest.  `pat` is given in lower case. -/
def litCi (pat : JStr) (s : JStr) : Option (JStr × JStr) :=
  if lowerS (s.take pat.length) = pat then some (s.take pat.length, s.drop pat.length)
  else none

/-- One alternative `open[\s\S]*?close` (case-insensitive) of the segment
splitter. -/
def stepSegAlt (o c : JStr) (s : JStr) : Option (JStr × JStr) :=
  match litCi o s with
  | some (op, rest) =>
    match findClose (litCi c) rest.length rest with
    | some (body, cl, rest2) => some (op ++ body ++ cl, rest2)
    | none => none
  | none => none

/-- One match of the segment regex
`(<table[\s\S]*?<\/table>|<ul[\s\S]*?<\/ul>|<ol[\s\S]*?<\/ol>)` (alternatives
tried in order). -/
def stepSeg (s : JStr) : Option (JStr × JStr) :=
  match stepSegAlt (utf16 "<table") (utf16 "</table>") s with
  | some r => some r
  | none =>
    match stepSegAlt (utf16 "<ul") (utf16 "</ul>") s with
    | some r => some r
    | none => stepSegAlt (utf16 "<ol") (utf16 "</ol>") s

/-- JS `String.split` with a capturing separator regex: the pieces between
matches, with each matched separator kept in place. -/
def splitCaptureScan : Nat → JStr → JStr → List JStr
  | 0, cur, s => [cur.reverse ++ s]
  | _ + 1, cur, [] => [cur.reverse]
  | n + 1, cur, c :: s =>
    match stepSeg (c :: s) with
    | some (m, rest) => cur.reverse :: m :: splitCaptureScan n [] rest
    | none => splitCaptureScan n (c :: cur) s

/-- JS `cleanedHtml.split(/(<table[\s\S]*?<\/table>|<ul[\s\S]*?<\/ul>|<ol[\s\S]*?<\/ol>)/gi)` -/
def segmentsOf (s : JStr) : List JStr := splitCaptureScan s.length [] s

/-- One match of the block separator `<\/(?:p|h[1-6]|div)>` (case-insensitive). -/
def stepBlockClose (s : JStr) : Option (JStr × JStr) :=
  match litCi (utf16 "</p>") s with
  | some r => some r
  | none =>
    match s with
    | 60 :: 47 :: h :: d :: 62 :: r =>
      if lowerC h = 104 ∧ 49 ≤ d ∧ d ≤ 54 then some ([60, 47, h, d, 62], r)
      else none
    | _ => none
  |>.orElse (fun _ => litCi (utf16 "</div>") s)

/-- JS `String.split` with a non-capturing separator regex: pieces only. -/
def splitDropScan (step : JStr → Option (JStr × JStr)) : Nat → JStr → JStr → List JStr
  | 0, cur, s => [cur.reverse ++ s]
  | _ + 1, cur, [] => [cur.reverse]
  | n + 1, cur, c :: s =>
    match step (c :: s) with
    | some (_, rest) => cur.reverse :: splitDropScan step n [] rest
    | none => splitDropScan step n (c :: cur) s

/-- The block chunks of a non-table/list segment:
`segment.split(/<\/(?:p|h[1-6]|div)>/i).map(trim).filter(nonempty)`. -/
def blocksOf (segment : JStr) : List JStr :=
  ((splitDropScan stepBlockClose segment.length [] segment).map trimJs).filter
    (fun b => !(b = [] : Bool))

/-- Regex `<h([1-6])[^>]*>` at the head: heading level and the rest after `>`. -/
def stepHeadOpen (s : JStr) : Option (Nat × JStr) :=
  match s with
  | 60 :: h :: d :: rest =>
    if lowerC h = 104 ∧ 49 ≤ d ∧ d ≤ 54 then
      match takeToGt rest with
      | some (_, r) => some (d - 48, r)
      | none => none
    else none
  | _ => none

/-- First match of `/<h([1-6])[^>]*>([\s\S]*)/i` anywhere in the block:
the captured level and the captured rest of the block. -/
def findHeading : Nat → JStr → Option (Nat × JStr)
  | 0, _ => none
  | _ + 1, [] => none
  | n + 1, c :: s =>
    match stepHeadOpen (c :: s) with
    | some r => some r
    | none => findHeading n s

/-- Regex `<p[^>]*>` at the head: the rest after `>`. -/
def stepParaOpen (s : JStr) : Option JStr :=
  match s with
  | 60 :: p :: rest =>
    if lowerC p = 112 then
      match takeToGt rest with
      | some (_, r) => some r
      | none => none
    else none
  | _ => none

/-- First match of `/<p[^>]*>([\s\S]*)/i` anywhere in the block. -/
def findPara : Nat → JStr → Option JStr
  | 0, _ => none
  | _ + 1, [] => none
  | n + 1, c :: s =>
    match stepParaOpen (c :: s) with
    | some r => some r
    | none => findPara n s

/-- Classify one block chunk (script lines 468–519): heading if a heading
open tag occurs, else paragraph if a `<p` open tag occurs, else a fallback
paragraph unless the text is empty or the block still contains `<li`. -/
def processBlock (b : JStr) : Option LNode :=
  match findHeading b.length b with
  | some (lvl, rest) =>
    let text := decodeHtmlEntities (trimJs (stripAllTags rest))
    if text = [] then none else some (LNode.heading lvl [LNode.ltext text])
  | none =>
    match findPara b.length b with
    | some rest =>
      let text := decodeHtmlEntities (trimJs (stripAllTags rest))
      if text = [] then none else some (LNode.paragraph [LNode.ltext text])
    | none =>
      let text := decodeHtmlEntities (trimJs (stripAllTags b))
      if text = [] || containsSub (utf16 "<li") b then none
      else some (LNode.paragraph [LNode.ltext text])

/-- Process one segment of the split (script lines 432–520). -/
def processSegment (parse : JStr → HTree) (seg : JStr) : List LNode :=
  if trimJs seg = [] then []
  else if (utf16 "<table").isPrefixOf (lowerS seg) then (parseHtmlTable seg).toList
  else if (utf16 "<ul").isPrefixOf (lowerS seg) then
    (parseHtmlList (parse seg) false).toList
  else if (utf16 "<ol").isPrefixOf (lowerS seg) then
    (parseHtmlList (parse seg) true).toList
  else (blocksOf seg).filterMap processBlock

/-- The placeholder paragraph inserted when nothing was recognised. -/
def placeholderParagraph : LNode :=
  LNode.paragraph [LNode.ltext (utf16 "[Content conversion needed]")]

/-- The root children of `htmlToLexical` applied to already-cleaned markup. -/
def htmlToLexicalFrom (parse : JStr → HTree) (cleaned : JStr) : List LNode :=
  let children := ((segmentsOf cleaned).map (processSegment parse)).flatten
  if children.isEmpty then [placeholderParagraph] else children

/-- The converter `htmlToLexical`: sanitize, then convert; the result is the root's ordered
child list.  `parse` is the external HTML parser, `f` the parsed input. -/
def htmlToLexical (parse : JStr → HTree) (f : HTree) : List LNode :=
  htmlToLexicalFrom parse (cleanWordPressHtml f)

/-- Shape test for the named-entity patterns: `&` followed by something
other than `#`. -/
def goodPat : JStr → Bool
  | a :: c :: _ => (a = 38 : Bool) && !(c = 35 : Bool)
  | _ => false

def consecutiveFrom : Nat → Nat → List Nat
  | _, 0 => []
  | v, n + 1 => v :: consecutiveFrom (v + 1) n

def itemValue : LNode → Nat
  | LNode.listitem _ v => v
  | _ => 0

def textOnly : HTree → Bool
  | HTree.hnil => true
  | HTree.htext _ sib => textOnly sib
  | HTree.helem _ _ _ _ => false

/-- A forest that is only whitespace text nodes: the parse of an empty or
whitespace-only markup string. -/
def wsTextOnly : HTree → Bool
  | HTree.hnil => true
  | HTree.htext s sib => s.all isJsWs && wsTextOnly sib
  | HTree.helem _ _ _ _ => false

/-- Does every element of the forest satisfy `p` on its tag and attributes? -/
def allElems (p : JStr → List (JStr × JStr) → Bool) : HTree → Bool
  | HTree.hnil => true
  | HTree.htext _ sib => allElems p sib
  | HTree.helem t a cs sib => p t a && allElems p cs && allElems p sib

/-- C7's attribute invariant: no `class`, no `style`, no `data-*`. -/
def noBadAttrs (attrs : List (JStr × JStr)) : Bool :=
  attrs.all (fun pr =>
    !(pr.1 = utf16 "class" : Bool) && !(pr.1 = utf16 "style" : Bool) &&
      !(utf16 "data-").isPrefixOf pr.1)

/-- The non-whitespace characters of a string, in order. -/
def nonWs (s : JStr) : JStr := s.filter (fun c => !isJsWs c)

/-- C9's invariant: every `p` element of the forest has nonempty trimmed text
or an embedded `img`/`a`/`mark` element. -/
def pElemsOk : HTree → Bool
  | HTree.hnil => true
  | HTree.htext _ sib => pElemsOk sib
  | HTree.helem t _ cs sib =>
    (if t = utf16 "p" then
      !(trimJs (textContentF cs) = [] : Bool) ||
        hasTagIn [utf16 "img", utf16 "a", utf16 "mark"] cs
     else true) && pElemsOk cs && pElemsOk sib

/-!
## Scanner lemmas for the table parser
-/

def prependBody (p : JStr) (r : JStr × JStr × JStr) : JStr × JStr × JStr :=
  (p ++ r.1, r.2.1, r.2.2)

/-- Markup for a `<th>`/`<td>` cell around plain content: tag letter `x` is 104
(`h`) or 100 (`d`). -/
def mkCell (x : Nat) (content : JStr) : JStr :=
  60 :: 116 :: x :: 62 :: (content ++ [60, 47, 116, x, 62])

/-- A `<tr>` row of cells. -/
def mkRow (x : Nat) (cs : List JStr) : JStr :=
  60 :: 116 :: 114 :: 62 :: (((cs.map (mkCell x)).flatten) ++ [60, 47, 116, 114, 62])

/-- A table with one `th` header row and one `td` body row. -/
def mkTableHtml (hs ds : List JStr) : JStr :=
  utf16 "<table>" ++ (mkRow 104 hs ++ (mkRow 100 ds ++ utf16 "</table>"))

/-- The Lexical cell node that C6 expects for content `content` with header
flag `flag`. -/
def cellNode (flag : Nat) (content : JStr) : LNode :=
  LNode.tablecell flag 1 1
    [LNode.paragraph
      (if decodeHtmlEntities (trimJs content) = [] then []
       else [LNode.ltext (decodeHtmlEntities (trimJs content))])]

/-!
## Lemmas: scanners that find nothing change nothing
-/

theorem rewriteScan_nil (step : JStr → Option (JStr × JStr)) :
    ∀ n, rewriteScan step n [] = [] := by
  intro n
  cases n <;> rfl

theorem rewriteScan_of_stepLit_notContains (pat rep : JStr) :
    ∀ s, containsSub pat s = false → ∀ n, rewriteScan (stepLit pat rep) n s = s := by
  intro s
  induction s with
  | nil => intro _ n; exact rewriteScan_nil _ n
  | cons c s ih =>
    intro h n
    simp only [containsSub, Bool.or_eq_false_iff] at h
    cases n with
    | zero => rfl
    | succ n =>
      have hstep : stepLit pat rep (c :: s) = none := by
        simp [stepLit, h.1]
      simp [rewriteScan, hstep, ih h.2 n]

theorem replaceSub_of_notContains (pat rep s : JStr) (h : containsSub pat s = false) :
    replaceSub pat rep s = s :=
  rewriteScan_of_stepLit_notContains pat rep s h s.length

theorem foldl_fixed {α β : Type} (g : β → α → β) (l : List α) (b : β)
    (h : ∀ x ∈ l, g b x = b) : l.foldl g b = b := by
  induction l with
  | nil => rfl
  | cons a l ih =>
    have hb : g b a = b := h a (List.mem_cons_self a l)
    rw [List.foldl_cons, hb]
    exact ih (fun x hx => h x (List.mem_cons_of_mem a hx))

theorem namedPass_fixed (s : JStr)
    (h : namedEntities.all (fun pr => !containsSub pr.1 s) = true) :
    namedPass s = s := by
  apply foldl_fixed
  intro pr hpr
  apply replaceSub_of_notContains
  have := (List.all_eq_true.mp h) pr hpr
  simpa using this

theorem rewriteScan_of_hasDecRef_false :
    ∀ s, hasDecRef s = false → ∀ n, rewriteScan stepDec n s = s := by
  intro s
  induction s with
  | nil => intro _ n; exact rewriteScan_nil _ n
  | cons c s ih =>
    intro h n
    simp only [hasDecRef, Bool.or_eq_false_iff] at h
    cases n with
    | zero => rfl
    | succ n =>
      cases h2 : stepDec (c :: s) with
      | some r => rw [h2] at h; simp at h
      | none => simp [rewriteScan, h2, ih h.2 n]

theorem rewriteScan_of_hasHexRef_false :
    ∀ s, hasHexRef s = false → ∀ n, rewriteScan stepHex n s = s := by
  intro s
  induction s with
  | nil => intro _ n; exact rewriteScan_nil _ n
  | cons c s ih =>
    intro h n
    simp only [hasHexRef, Bool.or_eq_false_iff] at h
    cases n with
    | zero => rfl
    | succ n =>
      cases h2 : stepHex (c :: s) with
      | some r => rw [h2] at h; simp at h
      | none => simp [rewriteScan, h2, ih h.2 n]

/-- A string with no decodable entity occurrence is a fixed point of the
decoder. -/
theorem decode_fixed_of_noEntity (s : JStr) (h : hasEntity s = false) :
    decodeHtmlEntities s = s := by
  simp only [hasEntity, Bool.or_eq_false_iff, List.any_eq_false] at h
  obtain ⟨⟨hn, hd⟩, hx⟩ := h
  have h1 : namedPass s = s := by
    apply namedPass_fixed
    simp only [List.all_eq_true]
    intro pr hpr
    simpa using hn pr hpr
  unfold decodeHtmlEntities decPass hexPass
  rw [h1, rewriteScan_of_hasDecRef_false s hd, rewriteScan_of_hasHexRef_false s hx]

/-- C2 (amended): the entity decoder is idempotent on every input whose
decoded result contains no remaining decodable entity occurrence (no named
entity of the table, no decimal and no hexadecimal numeric reference). -/
theorem C2_decode_idempotent_of_noRemainingEntity (s : JStr)
    (h : hasEntity (decodeHtmlEntities s) = false) :
    decodeHtmlEntities (decodeHtmlEntities s) = decodeHtmlEntities s :=
  decode_fixed_of_noEntity (decodeHtmlEntities s) h

theorem C2_decode_idempotent_witness :
    hasEntity (decodeHtmlEntities (utf16 "A &amp; B &#8211; C")) = false ∧
    decodeHtmlEntities (decodeHtmlEntities (utf16 "A &amp; B &#8211; C")) =
      decodeHtmlEntities (utf16 "A &amp; B &#8211; C") :=
  ⟨by decide, C2_decode_idempotent_of_noRemainingEntity _ (by decide)⟩

/-- C2 (counterexample): the decoder is not idempotent on every string.  The
named pass runs before the numeric passes, so the decimal reference in
`&#38;amp;` decodes to `&`, which re-forms `&amp;`; a second decode turns it
into `&`. -/
theorem C2_decode_not_idempotent_cex :
    decodeHtmlEntities (utf16 "&#38;amp;") = utf16 "&amp;" ∧
    decodeHtmlEntities (decodeHtmlEntities (utf16 "&#38;amp;")) = utf16 "&" ∧
    decodeHtmlEntities (decodeHtmlEntities (utf16 "&#38;amp;")) ≠
      decodeHtmlEntities (utf16 "&#38;amp;") := by
  refine ⟨by decide, by decide, by decide⟩

theorem containsSub_no38 (q : JStr) :
    ∀ t, (38 ∈ t → False) → containsSub (38 :: q) t = false := by
  intro t
  induction t with
  | nil => intro _; simp [containsSub, List.isPrefixOf]
  | cons c t ih =>
    intro h
    have hc : ¬(c = 38) := fun hh => h (hh ▸ List.mem_cons_self c t)
    simp only [containsSub, Bool.or_eq_false_iff]
    constructor
    · simp [List.isPrefixOf]
      intro hh
      exact absurd hh.symm hc
    · exact ih (fun hm => h (List.mem_cons_of_mem c hm))

theorem stepDec_none_of_ne38 (c : Nat) (s : JStr) (h : ¬(c = 38)) :
    stepDec (c :: s) = none := by
  unfold stepDec
  split
  · rename_i heq
    injection heq with h1 _
    exact absurd h1 h
  · rfl

theorem stepHex_none_of_ne38 (c : Nat) (s : JStr) (h : ¬(c = 38)) :
    stepHex (c :: s) = none := by
  unfold stepHex
  split
  · rename_i heq
    injection heq with h1 _
    exact absurd h1 h
  · rfl

theorem stepHex_single (v : Nat) : stepHex [v] = none := by
  unfold stepHex
  split
  · rename_i heq
    injection heq with _ h2
    exact absurd h2 (by simp)
  · rfl

theorem rewriteScan_stepDec_no38 :
    ∀ s, (38 ∈ s → False) → ∀ n, rewriteScan stepDec n s = s := by
  intro s
  induction s with
  | nil => intro _ n; exact rewriteScan_nil _ n
  | cons c s ih =>
    intro h n
    have hc : ¬(c = 38) := fun hh => h (hh ▸ List.mem_cons_self c s)
    cases n with
    | zero => rfl
    | succ n =>
      simp [rewriteScan, stepDec_none_of_ne38 c s hc,
        ih (fun hm => h (List.mem_cons_of_mem c hm)) n]

theorem rewriteScan_stepHex_no38 :
    ∀ s, (38 ∈ s → False) → ∀ n, rewriteScan stepHex n s = s := by
  intro s
  induction s with
  | nil => intro _ n; exact rewriteScan_nil _ n
  | cons c s ih =>
    intro h n
    have hc : ¬(c = 38) := fun hh => h (hh ▸ List.mem_cons_self c s)
    cases n with
    | zero => rfl
    | succ n =>
      simp [rewriteScan, stepHex_none_of_ne38 c s hc,
        ih (fun hm => h (List.mem_cons_of_mem c hm)) n]

theorem takeWhile_all_append (p : Nat → Bool) (l : JStr) (x : Nat) (r : JStr)
    (hl : ∀ c ∈ l, p c = true) (hx : p x = false) :
    (l ++ x :: r).takeWhile p = l ∧ (l ++ x :: r).dropWhile p = x :: r := by
  induction l with
  | nil => simp [List.takeWhile, List.dropWhile, hx]
  | cons c l ih =>
    have hc : p c = true := hl c (List.mem_cons_self c l)
    have ihr := ih (fun d hd => hl d (List.mem_cons_of_mem c hd))
    simp [List.takeWhile, List.dropWhile, hc, ihr.1, ihr.2]

theorem goodPat_shape (pat : JStr) (h : goodPat pat = true) :
    ∃ c p', pat = 38 :: c :: p' ∧ ¬(c = 35) := by
  match pat with
  | [] => simp [goodPat] at h
  | [x] => simp [goodPat] at h
  | a :: c :: t =>
    simp only [goodPat, Bool.and_eq_true, decide_eq_true_eq, Bool.not_eq_true',
      decide_eq_false_iff_not] at h
    exact ⟨c, t, by rw [h.1], h.2⟩

/-- Every named-entity pattern starts with `&` followed by a letter (never
`#`). -/
theorem namedEntities_goodPats :
    namedEntities.all (fun pr => goodPat pr.1) = true := by decide

theorem containsSub_goodPat_numericRef (pat : JStr) (hg : goodPat pat = true)
    (rest : JStr) (h38 : 38 ∈ rest → False) :
    containsSub pat (38 :: 35 :: rest) = false := by
  obtain ⟨c, p', hpat, hc⟩ := goodPat_shape pat hg
  subst hpat
  simp only [containsSub, Bool.or_eq_false_iff]
  refine ⟨?_, ?_⟩
  · simp [List.isPrefixOf, hc]
  · refine ⟨by simp [List.isPrefixOf], containsSub_no38 _ rest h38⟩

theorem namedPass_numericRef (rest : JStr) (h38 : 38 ∈ rest → False) :
    namedPass (38 :: 35 :: rest) = 38 :: 35 :: rest := by
  apply namedPass_fixed
  simp only [List.all_eq_true]
  intro pr hpr
  have hg := (List.all_eq_true.mp namedEntities_goodPats) pr hpr
  simp [containsSub_goodPat_numericRef pr.1 hg rest h38]

theorem stepDec_ref (ds : JStr) (hne : ¬(ds = [])) (hd : ∀ c ∈ ds, isDigitC c = true) :
    stepDec (38 :: 35 :: (ds ++ [59])) = some ([parseDec ds % 65536], []) := by
  have h1 := takeWhile_all_append isDigitC ds 59 [] hd (by decide)
  simp only [stepDec, h1.1, h1.2, if_neg hne]

theorem rewriteScan_cons_match (step : JStr → Option (JStr × JStr)) (n : Nat)
    (c : Nat) (s out rest : JStr) (h : step (c :: s) = some (out, rest)) :
    rewriteScan step (n + 1) (c :: s) = out ++ rewriteScan step n rest := by
  rw [rewriteScan, h]

theorem rewriteScan_cons_none (step : JStr → Option (JStr × JStr)) (n : Nat)
    (c : Nat) (s : JStr) (h : step (c :: s) = none) :
    rewriteScan step (n + 1) (c :: s) = c :: rewriteScan step n s := by
  rw [rewriteScan, h]

theorem decPass_ref (ds : JStr) (hne : ¬(ds = []))
    (hd : ∀ c ∈ ds, isDigitC c = true) :
    decPass (38 :: 35 :: (ds ++ [59])) = [parseDec ds % 65536] := by
  have hlen : (38 :: 35 :: (ds ++ [59])).length = (ds.length + 2) + 1 := by
    simp
  unfold decPass
  rw [hlen, rewriteScan_cons_match _ _ _ _ _ _ (stepDec_ref ds hne hd),
    rewriteScan_nil, List.append_nil]

theorem hexPass_single (v : Nat) : hexPass [v] = [v] := by
  unfold hexPass
  simp [rewriteScan, stepHex_single]

theorem isDigitC_ne38 (c : Nat) (h : isDigitC c = true) : ¬(c = 38) := by
  simp only [isDigitC, Bool.and_eq_true, decide_eq_true_eq] at h
  omega

theorem isHexC_ne38 (c : Nat) (h : isHexC c = true) : ¬(c = 38) := by
  simp only [isHexC, Bool.and_eq_true, Bool.or_eq_true, decide_eq_true_eq] at h
  omega

theorem no38_decRest (ds : JStr) (hd : ∀ c ∈ ds, isDigitC c = true) :
    38 ∈ ds ++ [59] → False := by
  intro hm
  rcases List.mem_append.mp hm with h | h
  · exact absurd rfl (isDigitC_ne38 38 (hd 38 h))
  · simp at h

/-- C3 for decimal references: `decodeHtmlEntities` maps `&#ds;` (nonempty
digits `ds`) to the single UTF-16 code unit `parseInt(ds,10) mod 2^16`. -/
theorem decode_decRef (ds : JStr) (hne : ¬(ds = []))
    (hd : ∀ c ∈ ds, isDigitC c = true) :
    decodeHtmlEntities (38 :: 35 :: (ds ++ [59])) = [parseDec ds % 65536] := by
  unfold decodeHtmlEntities
  rw [namedPass_numericRef _ (no38_decRest ds hd), decPass_ref ds hne hd]
  exact hexPass_single _

theorem no38_hexRest (hs : JStr) (hh : ∀ c ∈ hs, isHexC c = true) :
    38 ∈ 120 :: (hs ++ [59]) → False := by
  intro hm
  rcases List.mem_cons.mp hm with h | h
  · simp at h
  · rcases List.mem_append.mp h with h2 | h2
    · exact absurd rfl (isHexC_ne38 38 (hh 38 h2))
    · simp at h2

theorem stepDec_hexRef (hs : JStr) :
    stepDec (38 :: 35 :: 120 :: (hs ++ [59])) = none := by
  simp [stepDec, List.takeWhile_cons, isDigitC]

theorem decPass_hexRef (hs : JStr) (hh : ∀ c ∈ hs, isHexC c = true) :
    decPass (38 :: 35 :: 120 :: (hs ++ [59])) = 38 :: 35 :: 120 :: (hs ++ [59]) := by
  have hlen : (38 :: 35 :: 120 :: (hs ++ [59])).length = (hs.length + 3) + 1 := by
    simp
  unfold decPass
  rw [hlen]
  have h38 : 38 ∈ 35 :: 120 :: (hs ++ [59]) → False := by
    intro hm
    rcases List.mem_cons.mp hm with h | h
    · simp at h
    · exact no38_hexRest hs hh h
  rw [rewriteScan_cons_none _ _ _ _ (stepDec_hexRef hs),
    rewriteScan_stepDec_no38 _ h38]

theorem stepHex_ref (hs : JStr) (hne : ¬(hs = []))
    (hh : ∀ c ∈ hs, isHexC c = true) :
    stepHex (38 :: 35 :: 120 :: (hs ++ [59])) = some ([parseHex hs % 65536], []) := by
  have h1 := takeWhile_all_append isHexC hs 59 [] hh (by decide)
  simp only [stepHex, h1.1, h1.2, if_neg hne]

theorem hexPass_ref (hs : JStr) (hne : ¬(hs = []))
    (hh : ∀ c ∈ hs, isHexC c = true) :
    hexPass (38 :: 35 :: 120 :: (hs ++ [59])) = [parseHex hs % 65536] := by
  have hlen : (38 :: 35 :: 120 :: (hs ++ [59])).length = (hs.length + 3) + 1 := by
    simp
  unfold hexPass
  rw [hlen, rewriteScan_cons_match _ _ _ _ _ _ (stepHex_ref hs hne hh),
    rewriteScan_nil, List.append_nil]

/-- C3 for hexadecimal references. -/
theorem decode_hexRef (hs : JStr) (hne : ¬(hs = []))
    (hh : ∀ c ∈ hs, isHexC c = true) :
    decodeHtmlEntities (38 :: 35 :: 120 :: (hs ++ [59])) = [parseHex hs % 65536] := by
  unfold decodeHtmlEntities
  rw [namedPass_numericRef _ (no38_hexRest hs hh), decPass_hexRef hs hh,
    hexPass_ref hs hne hh]

/-- C3 (amended): a numeric character reference decodes to the single UTF-16
code unit `value mod 2^16` (so exactly the character with that code point
whenever the value is below 0x10000): decimal `&#ds;` gives
`parseInt(ds,10) % 65536`, hexadecimal `&#xhs;` gives
`parseInt(hs,16) % 65536`; in particular the documented examples hold. -/
theorem C3_numericRefs_decode :
    (∀ ds : JStr, ¬(ds = []) → (∀ c ∈ ds, isDigitC c = true) →
      decodeHtmlEntities (38 :: 35 :: (ds ++ [59])) = [parseDec ds % 65536]) ∧
    (∀ hs : JStr, ¬(hs = []) → (∀ c ∈ hs, isHexC c = true) →
      decodeHtmlEntities (38 :: 35 :: 120 :: (hs ++ [59])) = [parseHex hs % 65536]) ∧
    decodeHtmlEntities (utf16 "A &amp; B &#8211; C") = utf16 "A & B – C" ∧
    decodeHtmlEntities (utf16 "&#x2014;") = utf16 "—" :=
  ⟨decode_decRef, decode_hexRef, by decide, by decide⟩

theorem C3_numericRefs_decode_witness :
    decodeHtmlEntities (38 :: 35 :: ([56, 50, 49, 49] ++ [59])) =
      [parseDec [56, 50, 49, 49] % 65536] ∧
    decodeHtmlEntities (38 :: 35 :: 120 :: ([50, 48, 49, 52] ++ [59])) =
      [parseHex [50, 48, 49, 52] % 65536] :=
  ⟨C3_numericRefs_decode.1 [56, 50, 49, 49] (by decide) (by decide),
   C3_numericRefs_decode.2.1 [50, 48, 49, 52] (by decide) (by decide)⟩

/-- C3 (counterexample): for an astral code point the decoder truncates
(`String.fromCharCode`) instead of producing the character: `&#128512;`
(U+1F600, 😀) decodes to the single code unit 0xF600, not to 😀. -/
theorem C3_astral_cex :
    decodeHtmlEntities (utf16 "&#128512;") = [62976] ∧
    ¬(decodeHtmlEntities (utf16 "&#128512;") = utf16 "😀") :=
  ⟨by decide, by decide⟩

/-- C5: parsing `<ul><li>A</li><li>B</li></ul>` (its parsed forest) yields a
bullet list with exactly two list items, each one paragraph with one text
child, texts "A" and "B", positions 1 and 2. -/
theorem C5_list_two_items :
    parseHtmlList
      (HTree.helem (utf16 "ul") []
        (HTree.helem (utf16 "li") [] (HTree.htext (utf16 "A") HTree.hnil)
          (HTree.helem (utf16 "li") [] (HTree.htext (utf16 "B") HTree.hnil)
            HTree.hnil))
        HTree.hnil) false =
    some (LNode.list false
      [LNode.listitem [LNode.paragraph [LNode.ltext (utf16 "A")]] 1,
       LNode.listitem [LNode.paragraph [LNode.ltext (utf16 "B")]] 2]) := rfl

/-- C1 (counterexample): in `<ul><li></li><li>A</li></ul>` the first list
item has no decodable text; `parseHtmlList` omits it entirely (the output
list has one item, not a zero-child paragraph item). -/
theorem C1_empty_item_omitted_cex :
    collectLis
      (HTree.helem (utf16 "ul") []
        (HTree.helem (utf16 "li") [] HTree.hnil
          (HTree.helem (utf16 "li") [] (HTree.htext (utf16 "A") HTree.hnil)
            HTree.hnil))
        HTree.hnil) =
      [HTree.hnil, HTree.htext (utf16 "A") HTree.hnil] ∧
    parseHtmlList
      (HTree.helem (utf16 "ul") []
        (HTree.helem (utf16 "li") [] HTree.hnil
          (HTree.helem (utf16 "li") [] (HTree.htext (utf16 "A") HTree.hnil)
            HTree.hnil))
        HTree.hnil) false =
      some (LNode.list false
        [LNode.listitem [LNode.paragraph [LNode.ltext (utf16 "A")]] 1]) :=
  ⟨rfl, rfl⟩

/-- C1 (amended): a table cell with no decodable text yields a zero-child
paragraph and cells are never omitted (one output cell per matched cell); a
list item with no decodable text, however, is omitted: the emitted items are
exactly those with nonempty decoded text. -/
theorem C1_empty_cells_kept_empty_items_omitted :
    (∀ ms : List JStr, (buildCells ms).length = ms.length) ∧
    (∀ m : JStr, cellContentOf m = [] →
      buildCell m =
        LNode.tablecell (if cellIsHeader m then 1 else 0) 1 1 [LNode.paragraph []]) ∧
    (∀ items : List HTree, ∀ v : Nat,
      (buildListItems items v).length =
        (items.filter
          (fun it => !(decodeHtmlEntities (trimJs (textContentF it)) = [] : Bool))).length) := by
  refine ⟨fun ms => List.length_map ms buildCell, ?_, ?_⟩
  · intro m h
    simp [buildCell, h]
  · intro items
    induction items with
    | nil => intro v; rfl
    | cons it rest ih =>
      intro v
      by_cases h : decodeHtmlEntities (trimJs (textContentF it)) = []
      · simp [buildListItems, h, List.filter, ih v]
      · simp [buildListItems, h, List.filter, ih (v + 1)]

theorem C1_empty_cells_kept_witness :
    cellContentOf (utf16 "<td></td>") = [] ∧
    buildCell (utf16 "<td></td>") =
      LNode.tablecell (if cellIsHeader (utf16 "<td></td>") then 1 else 0) 1 1
        [LNode.paragraph []] ∧
    (buildCells [utf16 "<td></td>", utf16 "<td>A</td>"]).length =
      [utf16 "<td></td>", utf16 "<td>A</td>"].length ∧
    (buildListItems [HTree.hnil, HTree.htext (utf16 "A") HTree.hnil] 1).length =
      ([HTree.hnil, HTree.htext (utf16 "A") HTree.hnil].filter
        (fun it => !(decodeHtmlEntities (trimJs (textContentF it)) = [] : Bool))).length :=
  ⟨by decide, C1_empty_cells_kept_empty_items_omitted.2.1 _ (by decide),
   C1_empty_cells_kept_empty_items_omitted.1 _,
   C1_empty_cells_kept_empty_items_omitted.2.2 _ 1⟩

theorem buildListItems_values :
    ∀ items v, (buildListItems items v).map itemValue =
      consecutiveFrom v (buildListItems items v).length := by
  intro items
  induction items with
  | nil => intro v; rfl
  | cons it rest ih =>
    intro v
    by_cases h : decodeHtmlEntities (trimJs (textContentF it)) = []
    · simp only [buildListItems, h, if_pos]
      exact ih v
    · simp only [buildListItems, if_neg h, List.map_cons, List.length_cons]
      rw [ih (v + 1)]
      rfl

/-- C10: every list node produced by `parseHtmlList` carries item position
values that are exactly the consecutive integers 1, 2, … in document order —
items skipped for having no decodable text leave no gap. -/
theorem C10_values_consecutive (doc : HTree) (b : Bool) (nd : LNode)
    (h : parseHtmlList doc b = some nd) :
    ∃ items, nd = LNode.list b items ∧
      items.map itemValue = consecutiveFrom 1 items.length := by
  unfold parseHtmlList at h
  cases hcol : collectLis doc with
  | nil => rw [hcol] at h; simp at h
  | cons i is =>
    rw [hcol] at h
    dsimp only at h
    cases hbl : buildListItems (i :: is) 1 with
    | nil => rw [hbl] at h; simp at h
    | cons x xs =>
      rw [hbl] at h
      simp only [Option.some_inj] at h
      refine ⟨x :: xs, h.symm, ?_⟩
      rw [← hbl]
      exact buildListItems_values (i :: is) 1

theorem C10_values_consecutive_witness :
    ∃ items,
      LNode.list false
        [LNode.listitem [LNode.paragraph [LNode.ltext (utf16 "A")]] 1,
         LNode.listitem [LNode.paragraph [LNode.ltext (utf16 "B")]] 2] =
        LNode.list false items ∧
      items.map itemValue = consecutiveFrom 1 items.length :=
  C10_values_consecutive
    (HTree.helem (utf16 "ul") []
      (HTree.helem (utf16 "li") [] (HTree.htext (utf16 "A") HTree.hnil)
        (HTree.helem (utf16 "li") [] HTree.hnil
          (HTree.helem (utf16 "li") [] (HTree.htext (utf16 "B") HTree.hnil)
            HTree.hnil)))
      HTree.hnil) false _ rfl

theorem textOnly_of_wsTextOnly : ∀ f, wsTextOnly f = true → textOnly f = true := by
  intro f
  induction f with
  | hnil => intro _; rfl
  | htext s sib ih =>
    intro h
    simp only [wsTextOnly, Bool.and_eq_true] at h
    simpa [textOnly] using ih h.2
  | helem t a cs sib ihc ihs => intro h; simp [wsTextOnly] at h

theorem removeElems_textOnly (bad : JStr → List (JStr × JStr) → HTree → Bool) :
    ∀ f, textOnly f = true → removeElems bad f = f := by
  intro f
  induction f with
  | hnil => intro _; rfl
  | htext s sib ih => intro h; simp [removeElems, ih (by simpa [textOnly] using h)]
  | helem t a cs sib ihc ihs => intro h; simp [textOnly] at h

theorem mapAttrsF_textOnly (g : List (JStr × JStr) → List (JStr × JStr)) :
    ∀ f, textOnly f = true → mapAttrsF g f = f := by
  intro f
  induction f with
  | hnil => intro _; rfl
  | htext s sib ih => intro h; simp [mapAttrsF, ih (by simpa [textOnly] using h)]
  | helem t a cs sib ihc ihs => intro h; simp [textOnly] at h

theorem unwrapF_textOnly : ∀ f, textOnly f = true → unwrapF f = f := by
  intro f
  induction f with
  | hnil => intro _; rfl
  | htext s sib ih => intro h; simp [unwrapF, ih (by simpa [textOnly] using h)]
  | helem t a cs sib ihc ihs => intro h; simp [textOnly] at h

theorem cleanTreePipeline_textOnly (f : HTree) (h : textOnly f = true) :
    cleanTreePipeline f = f := by
  simp only [cleanTreePipeline, removeElems_textOnly, mapAttrsF_textOnly,
    unwrapF_textOnly, h]

theorem serializeF_ws : ∀ f, wsTextOnly f = true → (serializeF f).all isJsWs = true := by
  intro f
  induction f with
  | hnil => intro _; rfl
  | htext s sib ih =>
    intro h
    simp only [wsTextOnly, Bool.and_eq_true] at h
    simp only [serializeF, List.all_append, Bool.and_eq_true]
    exact ⟨h.1, ih h.2⟩
  | helem t a cs sib ihc ihs => intro h; simp [wsTextOnly] at h

theorem trimJs_of_all_ws (s : JStr) (h : s.all isJsWs = true) : trimJs s = [] := by
  have hd : s.dropWhile isJsWs = [] := by
    induction s with
    | nil => rfl
    | cons c t ih =>
      simp only [List.all_cons, Bool.and_eq_true] at h
      simp [List.dropWhile_cons, h.1, ih h.2]
  simp [trimJs, hd]

/-- C4: on empty or whitespace-only input markup (a parsed forest with only
whitespace text nodes) the converter returns exactly one placeholder
paragraph as the root's children, for every parse function. -/
theorem C4_placeholder_on_blank (parse : JStr → HTree) (f : HTree)
    (h : wsTextOnly f = true) :
    htmlToLexical parse f = [placeholderParagraph] := by
  unfold htmlToLexical cleanWordPressHtml
  rw [cleanTreePipeline_textOnly f (textOnly_of_wsTextOnly f h),
    trimJs_of_all_ws _ (serializeF_ws f h)]
  rfl

theorem C4_placeholder_on_blank_witness :
    wsTextOnly (HTree.htext (utf16 "  ") HTree.hnil) = true ∧
    htmlToLexical (fun _ => HTree.hnil) (HTree.htext (utf16 "  ") HTree.hnil) =
      [placeholderParagraph] :=
  ⟨by decide, C4_placeholder_on_blank _ _ (by decide)⟩

theorem allElems_hcat (p : JStr → List (JStr × JStr) → Bool) :
    ∀ f g, allElems p (hcat f g) = (allElems p f && allElems p g) := by
  intro f g
  induction f with
  | hnil => simp [hcat, allElems]
  | htext s sib ih => simp [hcat, allElems, ih]
  | helem t a cs sib ihc ihs =>
    simp [hcat, allElems, ihs, Bool.and_assoc]

theorem allElems_removeElems (p : JStr → List (JStr × JStr) → Bool)
    (bad : JStr → List (JStr × JStr) → HTree → Bool) :
    ∀ f, allElems p f = true → allElems p (removeElems bad f) = true := by
  intro f
  induction f with
  | hnil => intro _; rfl
  | htext s sib ih => intro h; simpa [removeElems, allElems] using ih h
  | helem t a cs sib ihc ihs =>
    intro h
    simp only [allElems, Bool.and_eq_true] at h
    by_cases hb : bad t a cs = true
    · simp [removeElems, hb, ihs h.2]
    · simp [removeElems, hb, allElems, h.1.1, ihc h.1.2, ihs h.2]

theorem allElems_removeElems_establish (p : JStr → List (JStr × JStr) → Bool)
    (bad : JStr → List (JStr × JStr) → HTree → Bool)
    (hcover : ∀ t a cs, p t a = false → bad t a cs = true) :
    ∀ f, allElems p (removeElems bad f) = true := by
  intro f
  induction f with
  | hnil => rfl
  | htext s sib ih => simpa [removeElems, allElems] using ih
  | helem t a cs sib ihc ihs =>
    by_cases hb : bad t a cs = true
    · simp [removeElems, hb, ihs]
    · have hp : p t a = true := by
        cases hpa : p t a with
        | true => rfl
        | false => exact absurd (hcover t a cs hpa) hb
      simp [removeElems, hb, allElems, hp, ihc, ihs]

theorem allElems_mapAttrsF_establish (q : List (JStr × JStr) → Bool)
    (g : List (JStr × JStr) → List (JStr × JStr))
    (hg : ∀ a, q (g a) = true) :
    ∀ f, allElems (fun _ a => q a) (mapAttrsF g f) = true := by
  intro f
  induction f with
  | hnil => rfl
  | htext s sib ih => simpa [mapAttrsF, allElems] using ih
  | helem t a cs sib ihc ihs => simp [mapAttrsF, allElems, hg a, ihc, ihs]

theorem allElems_mapAttrsF_preserve (p : JStr → List (JStr × JStr) → Bool)
    (g : List (JStr × JStr) → List (JStr × JStr))
    (hg : ∀ t a, p t a = true → p t (g a) = true) :
    ∀ f, allElems p f = true → allElems p (mapAttrsF g f) = true := by
  intro f
  induction f with
  | hnil => intro _; rfl
  | htext s sib ih => intro h; simpa [mapAttrsF, allElems] using ih h
  | helem t a cs sib ihc ihs =>
    intro h
    simp only [allElems, Bool.and_eq_true] at h
    simp [mapAttrsF, allElems, hg t a h.1.1, ihc h.1.2, ihs h.2]

theorem allElems_unwrapF_tagPred (r : JStr → Bool) :
    ∀ f, allElems (fun t _ => r t) f = true →
      allElems (fun t _ => r t) (unwrapF f) = true := by
  intro f
  induction f with
  | hnil => intro _; rfl
  | htext s sib ih => intro h; simpa [unwrapF, allElems] using ih h
  | helem t a cs sib ihc ihs =>
    intro h
    simp only [allElems, Bool.and_eq_true] at h
    by_cases hw : isWrapper a = true
    · by_cases hg : t = utf16 "div" ∨ t = utf16 "section" ∨ t = utf16 "figure"
      · simp only [unwrapF, hw, if_pos hg, if_true, allElems_hcat, Bool.and_eq_true]
        exact ⟨ihc h.1.2, ihs h.2⟩
      · simp [unwrapF, hw, hg, allElems, h.1.1, ihc h.1.2, ihs h.2]
    · simp [unwrapF, hw, allElems, h.1.1, ihc h.1.2, ihs h.2]

theorem mapAttrsF_comp (g1 g2 : List (JStr × JStr) → List (JStr × JStr)) :
    ∀ f, mapAttrsF g1 (mapAttrsF g2 f) = mapAttrsF (fun a => g1 (g2 a)) f := by
  intro f
  induction f with
  | hnil => rfl
  | htext s sib ih => simp [mapAttrsF, ih]
  | helem t a cs sib ihc ihs => simp [mapAttrsF, ihc, ihs]

theorem mem_removeAttr (n : JStr) (l : List (JStr × JStr)) (pr : JStr × JStr)
    (h : pr ∈ removeAttr n l) : pr ∈ l ∧ ¬(pr.1 = n) := by
  unfold removeAttr at h
  have h2 := List.mem_filter.mp h
  exact ⟨h2.1, by simpa using h2.2⟩

theorem mem_cleanDataAndId (x : List (JStr × JStr)) (pr : JStr × JStr)
    (h : pr ∈ cleanDataAndId x) :
    pr ∈ x ∧ (utf16 "data-").isPrefixOf pr.1 = false := by
  unfold cleanDataAndId at h
  dsimp only at h
  have h1 : pr ∈ x.filter (fun p => !(utf16 "data-").isPrefixOf p.1) := by
    split at h
    · exact (mem_removeAttr _ _ _ h).1
    · exact h
  have h2 := List.mem_filter.mp h1
  exact ⟨h2.1, by simpa using h2.2⟩

theorem noBadAttrs_after (a : List (JStr × JStr)) :
    noBadAttrs
      (cleanDataAndId (removeAttr (utf16 "style") (removeAttr (utf16 "class") a))) =
      true := by
  apply List.all_eq_true.mpr
  intro pr hpr
  have h1 := mem_cleanDataAndId _ pr hpr
  have h2 := mem_removeAttr _ _ pr h1.1
  have h3 := mem_removeAttr _ _ pr h2.1
  simp [h3.2, h2.2, h1.2]

/-- C7: after sanitisation no element carries a `class` attribute, a `style`
attribute, or any `data-*` attribute — for every parsed input forest. -/
theorem C7_no_class_style_data_attrs (f : HTree) :
    allElems (fun _ a => noBadAttrs a) (cleanTreePipeline f) = true := by
  unfold cleanTreePipeline
  apply allElems_removeElems
  apply allElems_removeElems
  rw [mapAttrsF_comp, mapAttrsF_comp]
  exact allElems_mapAttrsF_establish _ _ noBadAttrs_after _

theorem allElems_conj (p q : JStr → List (JStr × JStr) → Bool) :
    ∀ f, allElems p f = true → allElems q f = true →
      allElems (fun t a => p t a && q t a) f = true := by
  intro f
  induction f with
  | hnil => intro _ _; rfl
  | htext s sib ih => intro hp hq; simpa [allElems] using ih hp hq
  | helem t a cs sib ihc ihs =>
    intro hp hq
    simp only [allElems, Bool.and_eq_true] at hp hq ⊢
    exact ⟨⟨⟨hp.1.1, hq.1.1⟩, ihc hp.1.2 hq.1.2⟩, ihs hp.2 hq.2⟩

theorem allElems_mapAttrsF_tagPred (r : JStr → Bool)
    (g : List (JStr × JStr) → List (JStr × JStr)) :
    ∀ f, allElems (fun t _ => r t) f = true →
      allElems (fun t _ => r t) (mapAttrsF g f) = true :=
  allElems_mapAttrsF_preserve _ g (fun _ _ h => h)

/-- C8: after sanitisation the forest contains no `script` and no `style`
element (their subtrees, contents included, are removed) — for every parsed
input forest. -/
theorem C8_no_script_style_elements (f : HTree) :
    allElems
      (fun t _ => !(t = utf16 "script" : Bool) && !(t = utf16 "style" : Bool))
      (cleanTreePipeline f) = true := by
  unfold cleanTreePipeline
  apply allElems_removeElems
  apply allElems_removeElems
  apply allElems_mapAttrsF_tagPred
  apply allElems_mapAttrsF_tagPred
  apply allElems_mapAttrsF_tagPred
  apply allElems_unwrapF_tagPred
  apply allElems_mapAttrsF_tagPred
  apply allElems_removeElems
  apply allElems_removeElems
  apply allElems_removeElems
  apply allElems_removeElems
  apply allElems_removeElems
  apply allElems_removeElems
  apply allElems_removeElems
  apply allElems_removeElems
  have h1 : allElems (fun t _ => !(t = utf16 "style" : Bool))
      (removeElems (fun t _ _ => (t = utf16 "style" : Bool)) f) = true := by
    apply allElems_removeElems_establish
    intro t a cs hp
    simpa using hp
  have h2 : allElems (fun t _ => !(t = utf16 "script" : Bool))
      (removeElems (fun t _ _ => (t = utf16 "script" : Bool))
        (removeElems (fun t _ _ => (t = utf16 "style" : Bool)) f)) = true := by
    apply allElems_removeElems_establish
    intro t a cs hp
    simpa using hp
  have h3 : allElems (fun t _ => !(t = utf16 "style" : Bool))
      (removeElems (fun t _ _ => (t = utf16 "style" : Bool)) f) = true := h1
  have h4 := allElems_removeElems (fun t _ => !(t = utf16 "style" : Bool))
      (fun t _ _ => (t = utf16 "script" : Bool)) _ h3
  exact allElems_conj _ _ _ h2 h4

theorem trimJs_eq_nil_iff_all_ws (s : JStr) :
    trimJs s = [] ↔ s.all isJsWs = true := by
  constructor
  · intro h
    unfold trimJs at h
    have h1 : ((s.dropWhile isJsWs).reverse.dropWhile isJsWs) = [] := by
      cases hh : (s.dropWhile isJsWs).reverse.dropWhile isJsWs with
      | nil => rfl
      | cons x xs => rw [hh] at h; simp at h
    have h2 : ∀ c ∈ (s.dropWhile isJsWs).reverse, isJsWs c = true :=
      List.dropWhile_eq_nil_iff.mp h1
    have h3 : ∀ c ∈ s.dropWhile isJsWs, isJsWs c = true := by
      intro c hc
      exact h2 c (List.mem_reverse.mpr hc)
    apply List.all_eq_true.mpr
    intro c hc
    rcases List.mem_append.mp
      ((List.takeWhile_append_dropWhile (p := isJsWs) (l := s)) ▸ hc) with h4 | h4
    · exact List.mem_takeWhile_imp h4
    · exact h3 c h4
  · exact trimJs_of_all_ws s

theorem nonWs_eq_nil_iff_all_ws (s : JStr) :
    nonWs s = [] ↔ s.all isJsWs = true := by
  unfold nonWs
  rw [List.filter_eq_nil_iff, List.all_eq_true]
  constructor
  · intro h c hc
    have := h c hc
    simpa using this
  · intro h c hc
    simpa using h c hc

theorem trimJs_eq_nil_iff_nonWs (s : JStr) : (trimJs s = []) ↔ (nonWs s = []) := by
  rw [trimJs_eq_nil_iff_all_ws, nonWs_eq_nil_iff_all_ws]

theorem nonWs_append (s t : JStr) : nonWs (s ++ t) = nonWs s ++ nonWs t :=
  List.filter_append s t

theorem nonWs_removeElems (bad : JStr → List (JStr × JStr) → HTree → Bool)
    (hb : ∀ t a cs, bad t a cs = true → nonWs (textContentF cs) = []) :
    ∀ f, nonWs (textContentF (removeElems bad f)) = nonWs (textContentF f) := by
  intro f
  induction f with
  | hnil => rfl
  | htext s sib ih => simp [removeElems, textContentF, nonWs_append, ih]
  | helem t a cs sib ihc ihs =>
    by_cases hbad : bad t a cs = true
    · simp [removeElems, hbad, textContentF, nonWs_append, ihs, hb t a cs hbad]
    · simp [removeElems, hbad, textContentF, nonWs_append, ihc, ihs]

theorem hasTagIn_removeElems (tags : List JStr)
    (bad : JStr → List (JStr × JStr) → HTree → Bool)
    (hb : ∀ t a cs, bad t a cs = true →
      tags.contains t = false ∧ hasTagIn tags cs = false) :
    ∀ f, hasTagIn tags f = true → hasTagIn tags (removeElems bad f) = true := by
  intro f
  induction f with
  | hnil => intro h; exact h
  | htext s sib ih => intro h; simpa [removeElems, hasTagIn] using ih h
  | helem t a cs sib ihc ihs =>
    intro h
    simp only [hasTagIn, Bool.or_eq_true] at h
    by_cases hbad : bad t a cs = true
    · have hb2 := hb t a cs hbad
      rcases h with (h | h) | h
      · rw [hb2.1] at h; simp at h
      · rw [hb2.2] at h; simp at h
      · simp [removeElems, hbad, ihs h]
    · simp only [removeElems, hbad, if_neg, hasTagIn, Bool.or_eq_true]
      rcases h with (h | h) | h
      · exact Or.inl (Or.inl h)
      · exact Or.inl (Or.inr (ihc h))
      · exact Or.inr (ihs h)

theorem isEmptyP_spec (t : JStr) (cs : HTree) (h : isEmptyP t cs = true) :
    t = utf16 "p" ∧ trimJs (textContentF cs) = [] ∧
      hasTagIn [utf16 "img", utf16 "a", utf16 "mark"] cs = false := by
  simp only [isEmptyP, Bool.and_eq_true, decide_eq_true_eq, Bool.not_eq_true'] at h
  exact ⟨h.1.1, h.1.2, h.2⟩

theorem textOnly_of_serialize_ws :
    ∀ cs, (serializeF cs).all isJsWs = true → textOnly cs = true := by
  intro cs
  induction cs with
  | hnil => intro _; rfl
  | htext s sib ih =>
    intro h
    simp only [serializeF, List.all_append, Bool.and_eq_true] at h
    simpa [textOnly] using ih h.2
  | helem t a cs sib ihc ihs =>
    intro h
    simp [serializeF, isJsWs] at h
  
theorem textContentF_eq_serializeF_of_textOnly :
    ∀ cs, textOnly cs = true → textContentF cs = serializeF cs := by
  intro cs
  induction cs with
  | hnil => intro _; rfl
  | htext s sib ih =>
    intro h
    simp only [textContentF, serializeF]
    rw [ih (by simpa [textOnly] using h)]
  | helem t a cs sib ihc ihs => intro h; simp [textOnly] at h

theorem hasTagIn_textOnly (tags : List JStr) :
    ∀ cs, textOnly cs = true → hasTagIn tags cs = false := by
  intro cs
  induction cs with
  | hnil => intro _; rfl
  | htext s sib ih => intro h; simpa [hasTagIn] using ih (by simpa [textOnly] using h)
  | helem t a cs sib ihc ihs => intro h; simp [textOnly] at h

theorem isEmptyDivSpan_inert (t : JStr) (cs : HTree)
    (h : isEmptyDivSpan t cs = true) :
    nonWs (textContentF cs) = [] ∧
      [utf16 "img", utf16 "a", utf16 "mark"].contains t = false ∧
      hasTagIn [utf16 "img", utf16 "a", utf16 "mark"] cs = false := by
  simp only [isEmptyDivSpan, Bool.and_eq_true, Bool.or_eq_true,
    decide_eq_true_eq] at h
  have hws : (serializeF cs).all isJsWs = true :=
    (trimJs_eq_nil_iff_all_ws _).mp h.2
  have hto : textOnly cs = true := textOnly_of_serialize_ws cs hws
  refine ⟨?_, ?_, hasTagIn_textOnly _ cs hto⟩
  · rw [nonWs_eq_nil_iff_all_ws, textContentF_eq_serializeF_of_textOnly cs hto]
    exact hws
  · rcases h.1 with h1 | h1 <;> rw [h1] <;> decide

theorem pElemsOk_removeElems_inert (bad : JStr → List (JStr × JStr) → HTree → Bool)
    (hb1 : ∀ t a cs, bad t a cs = true → nonWs (textContentF cs) = [])
    (hb2 : ∀ t a cs, bad t a cs = true →
      [utf16 "img", utf16 "a", utf16 "mark"].contains t = false ∧
        hasTagIn [utf16 "img", utf16 "a", utf16 "mark"] cs = false) :
    ∀ f, pElemsOk f = true → pElemsOk (removeElems bad f) = true := by
  intro f
  induction f with
  | hnil => intro _; rfl
  | htext s sib ih => intro h; simpa [removeElems, pElemsOk] using ih h
  | helem t a cs sib ihc ihs =>
    intro h
    simp only [pElemsOk, Bool.and_eq_true] at h
    by_cases hbad : bad t a cs = true
    · simp [removeElems, hbad, ihs h.2]
    · simp only [removeElems, hbad, if_neg, pElemsOk, Bool.and_eq_true]
      refine ⟨⟨?_, ihc h.1.2⟩, ihs h.2⟩
      by_cases hp : t = utf16 "p"
      · rw [if_pos hp]
        have hcond := h.1.1
        rw [if_pos hp] at hcond
        simp only [Bool.or_eq_true, Bool.not_eq_true', decide_eq_false_iff_not] at hcond ⊢
        rcases hcond with hc | hc
        · left
          rw [trimJs_eq_nil_iff_nonWs] at hc ⊢
          rw [nonWs_removeElems bad hb1 cs]
          exact hc
        · right
          exact hasTagIn_removeElems _ bad hb2 cs hc
      · rw [if_neg hp]
  
theorem pElemsOk_establish_15a :
    ∀ f, pElemsOk (removeElems (fun t _ cs => isEmptyP t cs) f) = true := by
  have hb1 : ∀ (t : JStr) (a : List (JStr × JStr)) (cs : HTree),
      isEmptyP t cs = true → nonWs (textContentF cs) = [] := fun t _ cs h =>
    (trimJs_eq_nil_iff_nonWs _).mp (isEmptyP_spec t cs h).2.1
  have hb2 : ∀ (t : JStr) (a : List (JStr × JStr)) (cs : HTree),
      isEmptyP t cs = true →
        [utf16 "img", utf16 "a", utf16 "mark"].contains t = false ∧
          hasTagIn [utf16 "img", utf16 "a", utf16 "mark"] cs = false := by
    intro t a cs h
    have hs := isEmptyP_spec t cs h
    exact ⟨by rw [hs.1]; decide, hs.2.2⟩
  intro f
  induction f with
  | hnil => rfl
  | htext s sib ih => simpa [removeElems, pElemsOk] using ih
  | helem t a cs sib ihc ihs =>
    by_cases hbad : isEmptyP t cs = true
    · simp [removeElems, hbad, ihs]
    · simp only [removeElems, hbad, if_neg, pElemsOk, Bool.and_eq_true]
      refine ⟨⟨?_, ihc⟩, ihs⟩
      by_cases hp : t = utf16 "p"
      · rw [if_pos hp]
        simp only [Bool.or_eq_true, Bool.not_eq_true', decide_eq_false_iff_not]
        by_cases hx : trimJs (textContentF cs) = []
        · right
          have hht : hasTagIn [utf16 "img", utf16 "a", utf16 "mark"] cs = true := by
            cases hht : hasTagIn [utf16 "img", utf16 "a", utf16 "mark"] cs with
            | true => rfl
            | false =>
              exfalso
              apply hbad
              simp [isEmptyP, hp, hx, hht]
          exact hasTagIn_removeElems _ _ hb2 cs hht
        · left
          rw [trimJs_eq_nil_iff_nonWs] at hx ⊢
          rw [nonWs_removeElems _ hb1 cs]
          exact hx
      · rw [if_neg hp]

/-- C9: after sanitisation no `p` element has empty trimmed text content
while containing no embedded `img`, `a` or `mark` element — for every parsed
input forest. -/
theorem C9_no_empty_paragraphs (f : HTree) :
    pElemsOk (cleanTreePipeline f) = true := by
  unfold cleanTreePipeline
  apply pElemsOk_removeElems_inert
  · intro t a cs h
    exact (isEmptyDivSpan_inert t cs h).1
  · intro t a cs h
    exact (isEmptyDivSpan_inert t cs h).2
  · apply pElemsOk_establish_15a

/-- Fuel use: `findClose` consumes exactly one character per fuel unit, so any fuel of
at least the string length gives the same answer. -/
theorem findClose_fuel (isCl : JStr → Option (JStr × JStr)) :
    ∀ s n m, s.length ≤ n → s.length ≤ m →
      findClose isCl n s = findClose isCl m s := by
  intro s
  induction s with
  | nil =>
    intro n m _ _
    cases n <;> cases m <;> rfl
  | cons c s ih =>
    intro n m hn hm
    cases n with
    | zero => simp at hn
    | succ n =>
      cases m with
      | zero => simp at hm
      | succ m =>
        simp only [findClose]
        cases isCl (c :: s) with
        | some r => rfl
        | none =>
          rw [ih n m (Nat.le_of_succ_le_succ hn) (Nat.le_of_succ_le_succ hm)]

theorem findClose_cons_none (isCl : JStr → Option (JStr × JStr)) (n : Nat)
    (c : Nat) (s : JStr) (h : isCl (c :: s) = none) :
    findClose isCl (n + 1) (c :: s) =
      Option.map (prependBody [c]) (findClose isCl n s) := by
  simp only [findClose, h]
  cases findClose isCl n s with
  | none => rfl
  | some r => rfl

theorem findClose_cons_match (isCl : JStr → Option (JStr × JStr)) (n : Nat)
    (c : Nat) (s cl rest : JStr) (h : isCl (c :: s) = some (cl, rest)) :
    findClose isCl (n + 1) (c :: s) = some ([], cl, rest) := by
  simp only [findClose, h]

theorem prependBody_map_map (a b : JStr) (x : Option (JStr × JStr × JStr)) :
    Option.map (prependBody a) (Option.map (prependBody b) x) =
      Option.map (prependBody (a ++ b)) x := by
  cases x with
  | none => rfl
  | some r => simp [prependBody]

theorem findClose_plain_prefix (isCl : JStr → Option (JStr × JStr))
    (hstep : ∀ c s, ¬(c = 60) → isCl (c :: s) = none) :
    ∀ (p : JStr), (∀ c ∈ p, ¬(c = 60)) → ∀ n (s : JStr),
      findClose isCl (p.length + n) (p ++ s) =
        Option.map (prependBody p) (findClose isCl n s) := by
  intro p
  induction p with
  | nil =>
    intro _ n s
    cases hx : findClose isCl n s with
    | none => simp [hx]
    | some r => simp [hx, prependBody]
  | cons c p ih =>
    intro hp n s
    have hc : ¬(c = 60) := hp c (List.mem_cons_self c p)
    have hrec := ih (fun d hd => hp d (List.mem_cons_of_mem c hd)) n s
    have hshape : (c :: p).length + n = (p.length + n) + 1 := by
      simp [Nat.add_right_comm]
    rw [List.cons_append, hshape,
      findClose_cons_none isCl _ c _ (hstep c _ hc), hrec,
      prependBody_map_map]
    rfl

theorem collectScan_fuel (step : JStr → Option (JStr × JStr))
    (hstep : ∀ c s out rest, step (c :: s) = some (out, rest) → rest.length ≤ s.length) :
    ∀ k s n m, s.length ≤ k → s.length ≤ n → s.length ≤ m →
      collectScan step n s = collectScan step m s := by
  intro k
  induction k with
  | zero =>
    intro s n m hk _ _
    have : s = [] := List.length_eq_zero.mp (Nat.le_zero.mp hk)
    subst this
    cases n <;> cases m <;> rfl
  | succ k ih =>
    intro s n m hk hn hm
    cases s with
    | nil => cases n <;> cases m <;> rfl
    | cons c s =>
      cases n with
      | zero => simp at hn
      | succ n =>
        cases m with
        | zero => simp at hm
        | succ m =>
          simp only [collectScan]
          cases hs : step (c :: s) with
          | some r =>
            obtain ⟨o, re⟩ := r
            have hr := hstep c s o re hs
            have hks : s.length ≤ k := Nat.le_of_succ_le_succ hk
            dsimp only
            rw [ih re n m (Nat.le_trans hr hks)
              (Nat.le_trans hr (Nat.le_of_succ_le_succ hn))
              (Nat.le_trans hr (Nat.le_of_succ_le_succ hm))]
          | none =>
            dsimp only
            exact ih s n m (Nat.le_of_succ_le_succ hk)
              (Nat.le_of_succ_le_succ hn) (Nat.le_of_succ_le_succ hm)

theorem rewriteScan_fuel (step : JStr → Option (JStr × JStr))
    (hstep : ∀ c s out rest, step (c :: s) = some (out, rest) → rest.length ≤ s.length) :
    ∀ k s n m, s.length ≤ k → s.length ≤ n → s.length ≤ m →
      rewriteScan step n s = rewriteScan step m s := by
  intro k
  induction k with
  | zero =>
    intro s n m hk _ _
    have : s = [] := List.length_eq_zero.mp (Nat.le_zero.mp hk)
    subst this
    cases n <;> cases m <;> rfl
  | succ k ih =>
    intro s n m hk hn hm
    cases s with
    | nil => cases n <;> cases m <;> rfl
    | cons c s =>
      cases n with
      | zero => simp at hn
      | succ n =>
        cases m with
        | zero => simp at hm
        | succ m =>
          simp only [rewriteScan]
          cases hs : step (c :: s) with
          | some r =>
            obtain ⟨o, re⟩ := r
            have hr := hstep c s o re hs
            have hks : s.length ≤ k := Nat.le_of_succ_le_succ hk
            dsimp only
            rw [ih re n m (Nat.le_trans hr hks)
              (Nat.le_trans hr (Nat.le_of_succ_le_succ hn))
              (Nat.le_trans hr (Nat.le_of_succ_le_succ hm))]
          | none =>
            dsimp only
            rw [ih s n m (Nat.le_of_succ_le_succ hk)
              (Nat.le_of_succ_le_succ hn) (Nat.le_of_succ_le_succ hm)]

theorem closeTr_shrink (c : Nat) (s cl r : JStr) (h : closeTr (c :: s) = some (cl, r)) :
    r.length ≤ s.length := by
  unfold closeTr at h
  split at h
  next d e rr heq =>
    split at h
    next hcond =>
      injection h with h1
      injection heq with e1 heq2
      have hr : rr = r := congrArg Prod.snd h1
      subst hr
      subst heq2
      simp
      omega
    next => exact absurd h (by simp)
  next => exact absurd h (by simp)

theorem closeCell_shrink (c : Nat) (s cl r : JStr) (h : closeCell (c :: s) = some (cl, r)) :
    r.length ≤ s.length := by
  unfold closeCell at h
  split at h
  next d e rr heq =>
    split at h
    next hcond =>
      injection h with h1
      injection heq with e1 heq2
      have hr : rr = r := congrArg Prod.snd h1
      subst hr
      subst heq2
      simp
      omega
    next => exact absurd h (by simp)
  next => exact absurd h (by simp)

theorem length_dropWhile_le_my (p : Nat → Bool) (s : List Nat) :
    (s.dropWhile p).length ≤ s.length := by
  induction s with
  | nil => simp
  | cons c t ih =>
    rw [List.dropWhile_cons]
    split
    · exact Nat.le_succ_of_le ih
    · simp

theorem takeToGt_shrink (s t r : JStr) (h : takeToGt s = some (t, r)) :
    r.length + 1 ≤ s.length := by
  unfold takeToGt at h
  split at h
  next x rr heq =>
    injection h with h1
    have hr : rr = r := congrArg Prod.snd h1
    have hlen : (62 :: rr).length ≤ s.length := by
      rw [← heq]
      exact length_dropWhile_le_my _ _
    rw [← hr]
    simpa using hlen
  next => exact absurd h (by simp)

theorem findClose_rest_le (isCl : JStr → Option (JStr × JStr))
    (hcl : ∀ c s cl r, isCl (c :: s) = some (cl, r) → r.length ≤ s.length) :
    ∀ n s b cl r, findClose isCl n s = some (b, cl, r) → r.length ≤ s.length := by
  intro n
  induction n with
  | zero => intro s b cl r h; simp [findClose] at h
  | succ n ih =>
    intro s b cl r h
    cases s with
    | nil => simp [findClose] at h
    | cons c s2 =>
      rw [findClose] at h
      cases hcl2 : isCl (c :: s2) with
      | some pr =>
        rw [hcl2] at h
        obtain ⟨cl2, r2⟩ := pr
        injection h with h1
        have hr : r2 = r := congrArg (fun x => x.2.2) h1
        have := hcl c s2 cl2 r2 hcl2
        rw [← hr]
        simpa using Nat.le_succ_of_le this
      | none =>
        rw [hcl2] at h
        cases hrec : findClose isCl n s2 with
        | none => rw [hrec] at h; simp at h
        | some pr2 =>
          rw [hrec] at h
          obtain ⟨b2, cl2, r2⟩ := pr2
          injection h with h1
          have hr : r2 = r := congrArg (fun x => x.2.2) h1
          have := ih s2 b2 cl2 r2 hrec
          rw [← hr]
          simpa using Nat.le_succ_of_le this

theorem stepRow_shrink (c : Nat) (s : JStr) (out rest : JStr)
    (h : stepRow (c :: s) = some (out, rest)) : rest.length ≤ s.length := by
  unfold stepRow at h
  split at h
  next a b rest0 heq =>
    injection heq with e1 heq2
    split at h
    · cases htg : takeToGt rest0 with
      | none => rw [htg] at h; simp at h
      | some pr =>
        rw [htg] at h
        obtain ⟨attrs, rest2⟩ := pr
        dsimp only at h
        cases hfc : findClose closeTr rest2.length rest2 with
        | none => rw [hfc] at h; simp at h
        | some pr2 =>
          rw [hfc] at h
          obtain ⟨body, cl, rest3⟩ := pr2
          injection h with h1
          have hr : rest3 = rest := congrArg Prod.snd h1
          have h2 := findClose_rest_le closeTr closeTr_shrink rest2.length rest2 body cl rest3 hfc
          have h3 := takeToGt_shrink rest0 attrs rest2 htg
          subst heq2
          rw [← hr]
          simp
          omega
    · exact absurd h (by simp)
  next => exact absurd h (by simp)

theorem stepCell_shrink (c : Nat) (s : JStr) (out rest : JStr)
    (h : stepCell (c :: s) = some (out, rest)) : rest.length ≤ s.length := by
  unfold stepCell at h
  split at h
  next a b rest0 heq =>
    injection heq with e1 heq2
    split at h
    · cases htg : takeToGt rest0 with
      | none => rw [htg] at h; simp at h
      | some pr =>
        rw [htg] at h
        obtain ⟨attrs, rest2⟩ := pr
        dsimp only at h
        cases hfc : findClose closeCell rest2.length rest2 with
        | none => rw [hfc] at h; simp at h
        | some pr2 =>
          rw [hfc] at h
          obtain ⟨body, cl, rest3⟩ := pr2
          injection h with h1
          have hr : rest3 = rest := congrArg Prod.snd h1
          have h2 := findClose_rest_le closeCell closeCell_shrink rest2.length rest2 body cl rest3 hfc
          have h3 := takeToGt_shrink rest0 attrs rest2 htg
          subst heq2
          rw [← hr]
          simp
          omega
    · exact absurd h (by simp)
  next => exact absurd h (by simp)

theorem collectScan_skip1 (step : JStr → Option (JStr × JStr))
    (hshrink : ∀ c s out rest, step (c :: s) = some (out, rest) → rest.length ≤ s.length)
    (c : Nat) (s : JStr) (n : Nat) (h : step (c :: s) = none)
    (hn : (c :: s).length ≤ n) :
    collectScan step n (c :: s) = collectScan step s.length s := by
  cases n with
  | zero => simp at hn
  | succ n =>
    simp only [collectScan, h]
    exact collectScan_fuel step hshrink s.length s n s.length
      (Nat.le_refl _) (by simpa using hn) (Nat.le_refl _)

theorem collectScan_match1 (step : JStr → Option (JStr × JStr))
    (hshrink : ∀ c s out rest, step (c :: s) = some (out, rest) → rest.length ≤ s.length)
    (c : Nat) (s o re : JStr) (n : Nat) (h : step (c :: s) = some (o, re))
    (hn : (c :: s).length ≤ n) :
    collectScan step n (c :: s) = o :: collectScan step re.length re := by
  cases n with
  | zero => simp at hn
  | succ n =>
    simp only [collectScan, h]
    rw [collectScan_fuel step hshrink s.length re n re.length
      (hshrink c s o re h) (Nat.le_trans (hshrink c s o re h) (by simpa using hn))
      (Nat.le_refl _)]

theorem collectScan_skip_plain (step : JStr → Option (JStr × JStr))
    (hshrink : ∀ c s out rest, step (c :: s) = some (out, rest) → rest.length ≤ s.length)
    (hstep60 : ∀ c s, ¬(c = 60) → step (c :: s) = none) :
    ∀ (p : JStr), (∀ c ∈ p, ¬(c = 60)) → ∀ (s : JStr) (n : Nat),
      ((p ++ s).length ≤ n) →
      collectScan step n (p ++ s) = collectScan step s.length s := by
  intro p
  induction p with
  | nil =>
    intro _ s n hn
    exact collectScan_fuel step hshrink s.length s n s.length
      (Nat.le_refl _) (by simpa using hn) (Nat.le_refl _)
  | cons c p ih =>
    intro hp s n hn
    have hc : ¬(c = 60) := hp c (List.mem_cons_self c p)
    rw [List.cons_append,
      collectScan_skip1 step hshrink c (p ++ s) n (hstep60 c _ hc)
        (by simpa using hn)]
    exact ih (fun d hd => hp d (List.mem_cons_of_mem c hd)) s (p ++ s).length
      (Nat.le_refl _)

theorem rewriteScan_skip1 (step : JStr → Option (JStr × JStr))
    (hshrink : ∀ c s out rest, step (c :: s) = some (out, rest) → rest.length ≤ s.length)
    (c : Nat) (s : JStr) (n : Nat) (h : step (c :: s) = none)
    (hn : (c :: s).length ≤ n) :
    rewriteScan step n (c :: s) = c :: rewriteScan step s.length s := by
  cases n with
  | zero => simp at hn
  | succ n =>
    simp only [rewriteScan, h]
    rw [rewriteScan_fuel step hshrink s.length s n s.length
      (Nat.le_refl _) (by simpa using hn) (Nat.le_refl _)]

theorem rewriteScan_match1 (step : JStr → Option (JStr × JStr))
    (hshrink : ∀ c s out rest, step (c :: s) = some (out, rest) → rest.length ≤ s.length)
    (c : Nat) (s o re : JStr) (n : Nat) (h : step (c :: s) = some (o, re))
    (hn : (c :: s).length ≤ n) :
    rewriteScan step n (c :: s) = o ++ rewriteScan step re.length re := by
  cases n with
  | zero => simp at hn
  | succ n =>
    simp only [rewriteScan, h]
    rw [rewriteScan_fuel step hshrink re.length re n re.length
      (Nat.le_refl _) (Nat.le_trans (hshrink c s o re h) (by simpa using hn))
      (Nat.le_refl _)]

theorem rewriteScan_plain_id (step : JStr → Option (JStr × JStr))
    (hstep60 : ∀ c s, ¬(c = 60) → step (c :: s) = none) :
    ∀ (s : JStr), (∀ c ∈ s, ¬(c = 60)) → ∀ n, rewriteScan step n s = s := by
  intro s
  induction s with
  | nil => intro _ n; exact rewriteScan_nil _ n
  | cons c s ih =>
    intro hp n
    have hc : ¬(c = 60) := hp c (List.mem_cons_self c s)
    cases n with
    | zero => rfl
    | succ n =>
      simp [rewriteScan, hstep60 c s hc,
        ih (fun d hd => hp d (List.mem_cons_of_mem c hd)) n]

theorem rewriteScan_skip_plain (step : JStr → Option (JStr × JStr))
    (hshrink : ∀ c s out rest, step (c :: s) = some (out, rest) → rest.length ≤ s.length)
    (hstep60 : ∀ c s, ¬(c = 60) → step (c :: s) = none) :
    ∀ (p : JStr), (∀ c ∈ p, ¬(c = 60)) → ∀ (s : JStr) (n : Nat),
      ((p ++ s).length ≤ n) →
      rewriteScan step n (p ++ s) = p ++ rewriteScan step s.length s := by
  intro p
  induction p with
  | nil =>
    intro _ s n hn
    exact rewriteScan_fuel step hshrink s.length s n s.length
      (Nat.le_refl _) (by simpa using hn) (Nat.le_refl _)
  | cons c p ih =>
    intro hp s n hn
    have hc : ¬(c = 60) := hp c (List.mem_cons_self c p)
    rw [List.cons_append,
      rewriteScan_skip1 step hshrink c (p ++ s) n (hstep60 c _ hc)
        (by simpa using hn),
      ih (fun d hd => hp d (List.mem_cons_of_mem c hd)) s (p ++ s).length
        (Nat.le_refl _)]
    rfl

theorem findClose_skip1 (isCl : JStr → Option (JStr × JStr))
    (c : Nat) (s : JStr) (n : Nat) (h : isCl (c :: s) = none)
    (hn : (c :: s).length ≤ n) :
    findClose isCl n (c :: s) =
      Option.map (prependBody [c]) (findClose isCl s.length s) := by
  cases n with
  | zero => simp at hn
  | succ n =>
    rw [findClose_cons_none isCl n c s h,
      findClose_fuel isCl s n s.length (by simpa using hn) (Nat.le_refl _)]

theorem findClose_skip_plain (isCl : JStr → Option (JStr × JStr))
    (hstep60 : ∀ c s, ¬(c = 60) → isCl (c :: s) = none) :
    ∀ (p : JStr), (∀ c ∈ p, ¬(c = 60)) → ∀ (s : JStr) (n : Nat),
      ((p ++ s).length ≤ n) →
      findClose isCl n (p ++ s) =
        Option.map (prependBody p) (findClose isCl s.length s) := by
  intro p
  induction p with
  | nil =>
    intro _ s n hn
    rw [List.nil_append,
      findClose_fuel isCl s n s.length (by simpa using hn) (Nat.le_refl _)]
    cases hx : findClose isCl s.length s with
    | none => rfl
    | some r => simp [prependBody]
  | cons c p ih =>
    intro hp s n hn
    have hc : ¬(c = 60) := hp c (List.mem_cons_self c p)
    rw [List.cons_append,
      findClose_skip1 isCl c (p ++ s) n (hstep60 c _ hc) (by simpa using hn),
      ih (fun d hd => hp d (List.mem_cons_of_mem c hd)) s (p ++ s).length
        (Nat.le_refl _),
      prependBody_map_map]
    rfl

theorem closeTr_none_of_ne60 (c : Nat) (s : JStr) (h : ¬(c = 60)) :
    closeTr (c :: s) = none := by
  unfold closeTr
  split
  next d e rr heq =>
    injection heq with e1 _
    exact absurd e1 h
  next => rfl

theorem closeCell_none_of_ne60 (c : Nat) (s : JStr) (h : ¬(c = 60)) :
    closeCell (c :: s) = none := by
  unfold closeCell
  split
  next d e rr heq =>
    injection heq with e1 _
    exact absurd e1 h
  next => rfl

theorem closeTr_at_open (b : Nat) (s : JStr) : closeTr (60 :: 116 :: b :: s) = none := by
  unfold closeTr
  split
  next d e rr heq =>
    injection heq with _ heq2
    injection heq2 with e2 _
    exact absurd e2 (by decide)
  next => rfl

theorem closeCell_at_open (b : Nat) (s : JStr) : closeCell (60 :: 116 :: b :: s) = none := by
  unfold closeCell
  split
  next d e rr heq =>
    injection heq with _ heq2
    injection heq2 with e2 _
    exact absurd e2 (by decide)
  next => rfl

theorem closeTr_at_cellClose (x : Nat) (s : JStr) (hx : x = 104 ∨ x = 100) :
    closeTr (60 :: 47 :: 116 :: x :: 62 :: s) = none := by
  have hcond : ¬(lowerC 116 = 116 ∧ lowerC x = 114) := by
    rcases hx with h | h <;> subst h <;> decide
  simp [closeTr, hcond]

theorem closeTr_at_rowClose (s : JStr) :
    closeTr (60 :: 47 :: 116 :: 114 :: 62 :: s) = some ([60, 47, 116, 114, 62], s) := by
  simp [closeTr, lowerC]

theorem closeCell_at_cellClose (x : Nat) (s : JStr) (hx : x = 104 ∨ x = 100) :
    closeCell (60 :: 47 :: 116 :: x :: 62 :: s) = some ([60, 47, 116, x, 62], s) := by
  have hcond : lowerC 116 = 116 ∧ (lowerC x = 104 ∨ lowerC x = 100) := by
    rcases hx with h | h <;> subst h <;> decide
  simp [closeCell, hcond]

theorem prependBody_nil_map (o : Option (JStr × JStr × JStr)) :
    Option.map (prependBody []) o = o := by
  cases o with
  | none => rfl
  | some r => simp [prependBody]

theorem findClose_match_ge (isCl : JStr → Option (JStr × JStr)) (c : Nat)
    (s cl r : JStr) (n : Nat) (h : isCl (c :: s) = some (cl, r)) (hn : 1 ≤ n) :
    findClose isCl n (c :: s) = some ([], cl, r) := by
  cases n with
  | zero => simp at hn
  | succ n => exact findClose_cons_match isCl n c s cl r h

theorem findClose_closeTr_skip_cell (x : Nat) (hx : x = 104 ∨ x = 100)
    (h : JStr) (hp : ∀ c ∈ h, ¬(c = 60)) (s : JStr) (n : Nat)
    (hn : (mkCell x h ++ s).length ≤ n) :
    findClose closeTr n (mkCell x h ++ s) =
      Option.map (prependBody (mkCell x h)) (findClose closeTr s.length s) := by
  have hx60 : ¬(x = 60) := by rcases hx with h1 | h1 <;> subst h1 <;> decide
  have hshapeA : mkCell x h ++ s =
      60 :: 116 :: x :: 62 :: (h ++ (60 :: 47 :: 116 :: x :: 62 :: s)) := by
    simp [mkCell]
  rw [hshapeA,
    findClose_skip1 closeTr 60 _ n (closeTr_at_open x _)
      (by rw [← hshapeA]; exact hn),
    findClose_skip1 closeTr 116 _ _ (closeTr_none_of_ne60 116 _ (by decide))
      (Nat.le_refl _),
    findClose_skip1 closeTr x _ _ (closeTr_none_of_ne60 x _ hx60) (Nat.le_refl _),
    findClose_skip1 closeTr 62 _ _ (closeTr_none_of_ne60 62 _ (by decide))
      (Nat.le_refl _),
    findClose_skip_plain closeTr closeTr_none_of_ne60 h hp _ _ (Nat.le_refl _),
    findClose_skip1 closeTr 60 _ _ (closeTr_at_cellClose x _ hx) (Nat.le_refl _),
    findClose_skip1 closeTr 47 _ _ (closeTr_none_of_ne60 47 _ (by decide))
      (Nat.le_refl _),
    findClose_skip1 closeTr 116 _ _ (closeTr_none_of_ne60 116 _ (by decide))
      (Nat.le_refl _),
    findClose_skip1 closeTr x _ _ (closeTr_none_of_ne60 x _ hx60) (Nat.le_refl _),
    findClose_skip1 closeTr 62 _ _ (closeTr_none_of_ne60 62 _ (by decide))
      (Nat.le_refl _),
    prependBody_map_map, prependBody_map_map, prependBody_map_map,
    prependBody_map_map, prependBody_map_map, prependBody_map_map,
    prependBody_map_map, prependBody_map_map, prependBody_map_map]
  have hlist : ([60] : JStr) ++ [116] ++ [x] ++ [62] ++ h ++ [60] ++ [47] ++ [116] ++ [x] ++ [62] = mkCell x h := by
    simp [mkCell]
  rw [hlist]

theorem findClose_closeTr_skip_cells (x : Nat) (hx : x = 104 ∨ x = 100) :
    ∀ (cs : List JStr), (∀ h ∈ cs, ∀ c ∈ h, ¬(c = 60)) →
      ∀ (s : JStr) (n : Nat), ((cs.map (mkCell x)).flatten ++ s).length ≤ n →
        findClose closeTr n ((cs.map (mkCell x)).flatten ++ s) =
          Option.map (prependBody ((cs.map (mkCell x)).flatten))
            (findClose closeTr s.length s) := by
  intro cs
  induction cs with
  | nil =>
    intro _ s n hn
    simp only [List.map_nil, List.flatten_nil, List.nil_append]
    rw [findClose_fuel closeTr s n s.length (by simpa using hn) (Nat.le_refl _),
      prependBody_nil_map]
  | cons h cs ih =>
    intro hp s n hn
    have hph : ∀ c ∈ h, ¬(c = 60) := hp h (List.mem_cons_self h cs)
    have hshape : ((h :: cs).map (mkCell x)).flatten ++ s =
        mkCell x h ++ ((cs.map (mkCell x)).flatten ++ s) := by
      simp
    rw [hshape,
      findClose_closeTr_skip_cell x hx h hph _ n (by rw [← hshape]; exact hn),
      ih (fun d hd => hp d (List.mem_cons_of_mem h hd)) s _ (Nat.le_refl _),
      prependBody_map_map]
    have hlist : mkCell x h ++ (cs.map (mkCell x)).flatten =
        ((h :: cs).map (mkCell x)).flatten := by simp
    rw [hlist]

theorem stepRow_at_row (x : Nat) (hx : x = 104 ∨ x = 100) (cs : List JStr)
    (hp : ∀ h ∈ cs, ∀ c ∈ h, ¬(c = 60)) (R : JStr) :
    stepRow (mkRow x cs ++ R) = some (mkRow x cs, R) := by
  have hshape : mkRow x cs ++ R =
      60 :: 116 :: 114 :: (62 :: ((cs.map (mkCell x)).flatten ++
        (60 :: 47 :: 116 :: 114 :: 62 :: R))) := by
    simp [mkRow]
  rw [hshape]
  unfold stepRow
  dsimp only
  have hcond : lowerC 116 = 116 ∧ lowerC 114 = 114 := by decide
  rw [if_pos hcond]
  have htg : takeToGt (62 :: ((cs.map (mkCell x)).flatten ++
      (60 :: 47 :: 116 :: 114 :: 62 :: R))) =
      some ([], (cs.map (mkCell x)).flatten ++ (60 :: 47 :: 116 :: 114 :: 62 :: R)) := by
    simp [takeToGt, List.dropWhile_cons, List.takeWhile_cons]
  rw [htg]
  dsimp only
  have hfc : findClose closeTr
      ((cs.map (mkCell x)).flatten ++ (60 :: 47 :: 116 :: 114 :: 62 :: R)).length
      ((cs.map (mkCell x)).flatten ++ (60 :: 47 :: 116 :: 114 :: 62 :: R)) =
      some ((cs.map (mkCell x)).flatten, [60, 47, 116, 114, 62], R) := by
    rw [findClose_closeTr_skip_cells x hx cs hp _ _ (Nat.le_refl _),
      findClose_match_ge closeTr 60 _ _ _ _ (closeTr_at_rowClose R) (by simp)]
    simp [prependBody]
  rw [hfc]
  dsimp only
  simp [mkRow]

theorem findClose_closeCell_content (x : Nat) (hx : x = 104 ∨ x = 100)
    (h : JStr) (hp : ∀ c ∈ h, ¬(c = 60)) (R : JStr) (n : Nat)
    (hn : (h ++ (60 :: 47 :: 116 :: x :: 62 :: R)).length ≤ n) :
    findClose closeCell n (h ++ (60 :: 47 :: 116 :: x :: 62 :: R)) =
      some (h, [60, 47, 116, x, 62], R) := by
  rw [findClose_skip_plain closeCell closeCell_none_of_ne60 h hp _ n hn,
    findClose_match_ge closeCell 60 _ _ _ _ (closeCell_at_cellClose x R hx) (by simp)]
  simp [prependBody]

theorem stepCell_at_cell (x : Nat) (hx : x = 104 ∨ x = 100) (h : JStr)
    (hp : ∀ c ∈ h, ¬(c = 60)) (R : JStr) :
    stepCell (mkCell x h ++ R) = some (mkCell x h, R) := by
  have hshape : mkCell x h ++ R =
      60 :: 116 :: x :: (62 :: (h ++ (60 :: 47 :: 116 :: x :: 62 :: R))) := by
    simp [mkCell]
  rw [hshape]
  unfold stepCell
  dsimp only
  have hcond : lowerC 116 = 116 ∧ (lowerC x = 104 ∨ lowerC x = 100) := by
    rcases hx with h1 | h1 <;> subst h1 <;> decide
  rw [if_pos hcond]
  have htg : takeToGt (62 :: (h ++ (60 :: 47 :: 116 :: x :: 62 :: R))) =
      some ([], h ++ (60 :: 47 :: 116 :: x :: 62 :: R)) := by
    simp [takeToGt, List.dropWhile_cons, List.takeWhile_cons]
  rw [htg]
  dsimp only
  rw [findClose_closeCell_content x hx h hp R _ (Nat.le_refl _)]
  dsimp only
  simp [mkCell]

theorem stepRow_none_of_ne60 (c : Nat) (s : JStr) (h : ¬(c = 60)) :
    stepRow (c :: s) = none := by
  unfold stepRow
  split
  next a b rest heq =>
    injection heq with e1 _
    exact absurd e1 h
  next => rfl

theorem stepCell_none_of_ne60 (c : Nat) (s : JStr) (h : ¬(c = 60)) :
    stepCell (c :: s) = none := by
  unfold stepCell
  split
  next a b rest heq =>
    injection heq with e1 _
    exact absurd e1 h
  next => rfl

theorem stepCellTag_none_of_ne60 (c : Nat) (s : JStr) (h : ¬(c = 60)) :
    stepCellTag (c :: s) = none := by
  unfold stepCellTag
  split
  next rest heq =>
    injection heq with e1 _
    exact absurd e1 h
  next => rfl

theorem stepAnyTag_none_of_ne60 (c : Nat) (s : JStr) (h : ¬(c = 60)) :
    stepAnyTag (c :: s) = none := by
  unfold stepAnyTag
  split
  next rest heq =>
    injection heq with e1 _
    exact absurd e1 h
  next => rfl

theorem stepRow_at_table (s : JStr) : stepRow (60 :: 116 :: 97 :: s) = none := by
  unfold stepRow
  dsimp only
  rw [if_neg (by decide)]

theorem stepCell_at_tr (s : JStr) : stepCell (60 :: 116 :: 114 :: s) = none := by
  unfold stepCell
  dsimp only
  rw [if_neg (by decide)]

theorem stepCellTag_at_open (x : Nat) (hx : x = 104 ∨ x = 100) (S : JStr) :
    stepCellTag (60 :: 116 :: x :: 62 :: S) = some ([], S) := by
  unfold stepCellTag
  dsimp only
  have hcond : lowerC 116 = 116 ∧ (lowerC x = 104 ∨ lowerC x = 100) := by
    rcases hx with h1 | h1 <;> subst h1 <;> decide
  rw [if_pos hcond]
  have htg : takeToGt (62 :: S) = some ([], S) := by
    simp [takeToGt, List.dropWhile_cons, List.takeWhile_cons]
  rw [htg]

theorem stepCellTag_at_close (x : Nat) (hx : x = 104 ∨ x = 100) (S : JStr) :
    stepCellTag (60 :: 47 :: 116 :: x :: 62 :: S) = some ([], S) := by
  unfold stepCellTag
  dsimp only
  have hcond : lowerC 116 = 116 ∧ (lowerC x = 104 ∨ lowerC x = 100) := by
    rcases hx with h1 | h1 <;> subst h1 <;> decide
  rw [if_pos hcond]
  have htg : takeToGt (62 :: S) = some ([], S) := by
    simp [takeToGt, List.dropWhile_cons, List.takeWhile_cons]
  rw [htg]

theorem stepCellTag_shrink (c : Nat) (s : JStr) (out rest : JStr)
    (h : stepCellTag (c :: s) = some (out, rest)) : rest.length ≤ s.length := by
  unfold stepCellTag at h
  split at h
  next rest0 heq =>
    injection heq with e1 heq2
    have hlen0 : (match rest0 with | 47 :: r => r | r => r).length ≤ rest0.length := by
      split
      · simp
      · exact Nat.le_refl _
    split at h
    next a b r2 heq3 =>
      split at h
      · cases htg : takeToGt r2 with
        | none => rw [htg] at h; simp at h
        | some pr =>
          rw [htg] at h
          obtain ⟨attrs, rest3⟩ := pr
          dsimp only at h
          injection h with h1
          have hr : rest3 = rest := congrArg Prod.snd h1
          have h3 := takeToGt_shrink r2 attrs rest3 htg
          have h4 : r2.length + 2 = (a :: b :: r2).length := by simp
          rw [heq3] at hlen0
          subst heq2
          rw [← hr]
          simp at hlen0
          omega
      · exact absurd h (by simp)
    next => exact absurd h (by simp)
  next => exact absurd h (by simp)

theorem collectScan_cells (x : Nat) (hx : x = 104 ∨ x = 100) :
    ∀ (cs : List JStr), (∀ h ∈ cs, ∀ c ∈ h, ¬(c = 60)) →
      ∀ n, (((cs.map (mkCell x)).flatten) ++ [60, 47, 116, 114, 62]).length ≤ n →
        collectScan stepCell n (((cs.map (mkCell x)).flatten) ++ [60, 47, 116, 114, 62]) =
          cs.map (mkCell x) := by
  intro cs
  induction cs with
  | nil =>
    intro _ n hn
    simp only [List.map_nil, List.flatten_nil, List.nil_append]
    rw [collectScan_fuel stepCell stepCell_shrink 5 _ n 5 (by simp)
      (by simpa using hn) (by simp)]
    decide
  | cons h cs ih =>
    intro hp n hn
    have hph : ∀ c ∈ h, ¬(c = 60) := hp h (List.mem_cons_self h cs)
    have hshape : (((h :: cs).map (mkCell x)).flatten) ++ [60, 47, 116, 114, 62] =
        mkCell x h ++ ((cs.map (mkCell x)).flatten ++ [60, 47, 116, 114, 62]) := by
      simp
    have hmk : mkCell x h ++ ((cs.map (mkCell x)).flatten ++ [60, 47, 116, 114, 62]) =
        60 :: 116 :: x :: 62 :: ((h ++ [60, 47, 116, x, 62]) ++
          ((cs.map (mkCell x)).flatten ++ [60, 47, 116, 114, 62])) := by
      simp [mkCell]
    have hstep := stepCell_at_cell x hx h hph
      ((cs.map (mkCell x)).flatten ++ [60, 47, 116, 114, 62])
    rw [hshape]
    rw [hmk] at hstep ⊢
    rw [collectScan_match1 stepCell stepCell_shrink _ _ _ _ n hstep
      (by rw [← hmk, ← hshape]; exact hn)]
    rw [ih (fun d hd => hp d (List.mem_cons_of_mem h hd)) _ (Nat.le_refl _)]
    simp

theorem cellMatches_mkRow (x : Nat) (hx : x = 104 ∨ x = 100) (cs : List JStr)
    (hp : ∀ h ∈ cs, ∀ c ∈ h, ¬(c = 60)) :
    cellMatches (mkRow x cs) = cs.map (mkCell x) := by
  unfold cellMatches
  have hshape : mkRow x cs =
      60 :: 116 :: 114 :: (62 :: ((cs.map (mkCell x)).flatten ++ [60, 47, 116, 114, 62])) := by
    simp [mkRow]
  rw [hshape,
    collectScan_skip1 stepCell stepCell_shrink 60 _ _ (stepCell_at_tr _)
      (Nat.le_refl _),
    collectScan_skip1 stepCell stepCell_shrink 116 _ _
      (stepCell_none_of_ne60 116 _ (by decide)) (Nat.le_refl _),
    collectScan_skip1 stepCell stepCell_shrink 114 _ _
      (stepCell_none_of_ne60 114 _ (by decide)) (Nat.le_refl _),
    collectScan_skip1 stepCell stepCell_shrink 62 _ _
      (stepCell_none_of_ne60 62 _ (by decide)) (Nat.le_refl _)]
  exact collectScan_cells x hx cs hp _ (Nat.le_refl _)

theorem rowMatches_mkTable (hs ds : List JStr)
    (hph : ∀ h ∈ hs, ∀ c ∈ h, ¬(c = 60)) (hpd : ∀ h ∈ ds, ∀ c ∈ h, ¬(c = 60)) :
    rowMatches (mkTableHtml hs ds) = [mkRow 104 hs, mkRow 100 ds] := by
  unfold rowMatches
  have hshape : mkTableHtml hs ds =
      60 :: 116 :: 97 :: (98 :: 108 :: 101 :: 62 ::
        (mkRow 104 hs ++ (mkRow 100 ds ++ utf16 "</table>"))) := by
    simp [mkTableHtml]
    rfl
  rw [hshape,
    collectScan_skip1 stepRow stepRow_shrink 60 _ _ (stepRow_at_table _)
      (Nat.le_refl _),
    collectScan_skip1 stepRow stepRow_shrink 116 _ _
      (stepRow_none_of_ne60 116 _ (by decide)) (Nat.le_refl _),
    collectScan_skip1 stepRow stepRow_shrink 97 _ _
      (stepRow_none_of_ne60 97 _ (by decide)) (Nat.le_refl _),
    collectScan_skip1 stepRow stepRow_shrink 98 _ _
      (stepRow_none_of_ne60 98 _ (by decide)) (Nat.le_refl _),
    collectScan_skip1 stepRow stepRow_shrink 108 _ _
      (stepRow_none_of_ne60 108 _ (by decide)) (Nat.le_refl _),
    collectScan_skip1 stepRow stepRow_shrink 101 _ _
      (stepRow_none_of_ne60 101 _ (by decide)) (Nat.le_refl _),
    collectScan_skip1 stepRow stepRow_shrink 62 _ _
      (stepRow_none_of_ne60 62 _ (by decide)) (Nat.le_refl _)]
  have hstep1 := stepRow_at_row 104 (Or.inl rfl) hs hph (mkRow 100 ds ++ utf16 "</table>")
  have hmk1 : mkRow 104 hs ++ (mkRow 100 ds ++ utf16 "</table>") =
      60 :: 116 :: 114 :: (62 :: (((hs.map (mkCell 104)).flatten ++ [60, 47, 116, 114, 62]) ++
        (mkRow 100 ds ++ utf16 "</table>"))) := by
    simp [mkRow]
  rw [hmk1] at hstep1 ⊢
  rw [collectScan_match1 stepRow stepRow_shrink _ _ _ _ _ hstep1 (Nat.le_refl _)]
  have hstep2 := stepRow_at_row 100 (Or.inr rfl) ds hpd (utf16 "</table>")
  have hmk2 : mkRow 100 ds ++ utf16 "</table>" =
      60 :: 116 :: 114 :: (62 :: (((ds.map (mkCell 100)).flatten ++ [60, 47, 116, 114, 62]) ++
        utf16 "</table>")) := by
    simp [mkRow]
  rw [hmk2] at hstep2 ⊢
  rw [collectScan_match1 stepRow stepRow_shrink _ _ _ _ _ hstep2 (Nat.le_refl _)]
  have hfin : collectScan stepRow (utf16 "</table>").length (utf16 "</table>") = [] := by
    decide
  rw [hfin]

theorem stripCellTags_mkCell (x : Nat) (hx : x = 104 ∨ x = 100) (h : JStr)
    (hp : ∀ c ∈ h, ¬(c = 60)) : stripCellTags (mkCell x h) = h := by
  unfold stripCellTags
  have hshape : mkCell x h = 60 :: 116 :: x :: 62 :: (h ++ (60 :: 47 :: 116 :: x :: 62 :: ([] : JStr))) := by
    simp [mkCell]
  have hstep1 := stepCellTag_at_open x hx (h ++ (60 :: 47 :: 116 :: x :: 62 :: ([] : JStr)))
  rw [hshape,
    rewriteScan_match1 stepCellTag stepCellTag_shrink _ _ _ _ _ hstep1 (Nat.le_refl _),
    rewriteScan_skip_plain stepCellTag stepCellTag_shrink stepCellTag_none_of_ne60
      h hp _ _ (Nat.le_refl _),
    rewriteScan_match1 stepCellTag stepCellTag_shrink _ _ _ _ _
      (stepCellTag_at_close x hx ([] : JStr)) (Nat.le_refl _)]
  simp [rewriteScan_nil]

theorem stripAllTags_plain (h : JStr) (hp : ∀ c ∈ h, ¬(c = 60)) :
    stripAllTags h = h := by
  unfold stripAllTags
  exact rewriteScan_plain_id stepAnyTag stepAnyTag_none_of_ne60 h hp _

theorem cellIsHeader_th (h : JStr) : cellIsHeader (mkCell 104 h) = true := by
  simp [cellIsHeader, mkCell, lowerS, List.isPrefixOf, lowerC]

theorem cellIsHeader_td (h : JStr) : cellIsHeader (mkCell 100 h) = false := by
  simp [cellIsHeader, mkCell, lowerS, List.isPrefixOf, lowerC]

theorem buildCell_th (h : JStr) (hp : ∀ c ∈ h, ¬(c = 60)) :
    buildCell (mkCell 104 h) = cellNode 1 h := by
  unfold buildCell cellNode cellContentOf
  rw [stripCellTags_mkCell 104 (Or.inl rfl) h hp, stripAllTags_plain h hp,
    cellIsHeader_th]
  simp

theorem buildCell_td (h : JStr) (hp : ∀ c ∈ h, ¬(c = 60)) :
    buildCell (mkCell 100 h) = cellNode 0 h := by
  unfold buildCell cellNode cellContentOf
  rw [stripCellTags_mkCell 100 (Or.inr rfl) h hp, stripAllTags_plain h hp,
    cellIsHeader_td]
  simp

theorem buildCells_th : ∀ (hs : List JStr), (∀ h ∈ hs, ∀ c ∈ h, ¬(c = 60)) →
    buildCells (hs.map (mkCell 104)) = hs.map (cellNode 1) := by
  intro hs
  induction hs with
  | nil => intro _; rfl
  | cons h t ih =>
    intro hp
    simp only [buildCells, List.map_cons]
    rw [buildCell_th h (hp h (List.mem_cons_self h t))]
    have h2 := ih (fun d hd => hp d (List.mem_cons_of_mem h hd))
    simp only [buildCells] at h2
    rw [h2]

theorem buildCells_td : ∀ (ds : List JStr), (∀ h ∈ ds, ∀ c ∈ h, ¬(c = 60)) →
    buildCells (ds.map (mkCell 100)) = ds.map (cellNode 0) := by
  intro ds
  induction ds with
  | nil => intro _; rfl
  | cons h t ih =>
    intro hp
    simp only [buildCells, List.map_cons]
    rw [buildCell_td h (hp h (List.mem_cons_self h t))]
    have h2 := ih (fun d hd => hp d (List.mem_cons_of_mem h hd))
    simp only [buildCells] at h2
    rw [h2]

/-- C6: parsing a table with one `th` header row and one `td` body row (cell
contents free of `<`) yields a table whose first row's cells all carry
header-state 1, whose second row's cells all carry header-state 0, and every
cell has colSpan 1 and rowSpan 1 (see `cellNode`). -/
theorem C6_header_body_rows (hs ds : List JStr) (hhs : ¬(hs = []))
    (hds : ¬(ds = []))
    (hph : ∀ h ∈ hs, ∀ c ∈ h, ¬(c = 60)) (hpd : ∀ d ∈ ds, ∀ c ∈ d, ¬(c = 60)) :
    parseHtmlTable (mkTableHtml hs ds) =
      some (LNode.table
        [LNode.tablerow (hs.map (cellNode 1)),
         LNode.tablerow (ds.map (cellNode 0))]) := by
  unfold parseHtmlTable
  rw [rowMatches_mkTable hs ds hph hpd]
  dsimp only
  unfold buildRows
  rw [List.filterMap_cons, List.filterMap_cons, List.filterMap_nil,
    cellMatches_mkRow 104 (Or.inl rfl) hs hph,
    cellMatches_mkRow 100 (Or.inr rfl) ds hpd]
  cases hs with
  | nil => exact absurd rfl hhs
  | cons h0 hs' =>
    cases ds with
    | nil => exact absurd rfl hds
    | cons d0 ds' =>
      dsimp only [List.map_cons]
      rw [show buildCells (mkCell 104 h0 :: hs'.map (mkCell 104)) =
            buildCells ((h0 :: hs').map (mkCell 104)) from by simp [buildCells],
        show buildCells (mkCell 100 d0 :: ds'.map (mkCell 100)) =
            buildCells ((d0 :: ds').map (mkCell 100)) from by simp [buildCells],
        buildCells_th (h0 :: hs') hph, buildCells_td (d0 :: ds') hpd]
      rfl

theorem C6_header_body_rows_witness :
    parseHtmlTable (mkTableHtml [utf16 "H1", utf16 "H2"] [utf16 "D1", utf16 "D2"]) =
      some (LNode.table
        [LNode.tablerow ([utf16 "H1", utf16 "H2"].map (cellNode 1)),
         LNode.tablerow ([utf16 "D1", utf16 "D2"].map (cellNode 0))]) :=
  C6_header_body_rows [utf16 "H1", utf16 "H2"] [utf16 "D1", utf16 "D2"]
    (by decide) (by decide) (by decide) (by decide)

